import Mathlib

/-!
Verification development for the interactive paginated search-and-select
engine of the git-forge repository (source file src/tui.rs).

Strings are embedded as lists of Unicode code points (`List Char`).  The
Rust code addresses strings by UTF-8 byte index, but every index it uses
is a grapheme-cluster boundary (hence a code-point boundary), so the
code-point-level embedding is faithful: each byte index used by the code
corresponds to a unique code-point index.
-/

namespace GitForge

/-- Model of usize::MAX on a 64-bit target. -/
def usizeMax : Nat := 2 ^ 64 - 1

/-- Model of usize::saturating_add. Natural subtraction already models
saturating_sub. -/
def satAdd (a b : Nat) : Nat := min (a + b) usizeMax

/-- Model of Rust char::is_whitespace: the Unicode White_Space property. -/
def isWsChar (c : Char) : Bool :=
  let n := c.toNat
  (0x9 ≤ n && n ≤ 0xD) || n = 0x20 || n = 0x85 || n = 0xA0 || n = 0x1680 ||
  (0x2000 ≤ n && n ≤ 0x200A) || n = 0x2028 || n = 0x2029 || n = 0x202F ||
  n = 0x205F || n = 0x3000

/-- Model of the Unicode Grapheme_Extend property, restricted to the
Combining Diacritical Marks block U+0300..U+036F.  The unicode-segmentation
crate used by the source implements full UAX #29 extended grapheme
clusters; this embedding is faithful for strings drawn from code points
that are either in this block or outside every UAX #29 joining class
(in particular all ASCII text used below). -/
def isExtendChar (c : Char) : Bool :=
  0x300 ≤ c.toNat && c.toNat ≤ 0x36F

/-- Helper for `graphemes`: prepend the next code point `c` to the
segmentation `rest` of the remaining string `cs`.  When `cs` starts with an
extend character, `c` joins the first cluster of `rest`; otherwise `c`
starts a cluster of its own. -/
def graphemeCons (c : Char) (cs : List Char) (rest : List (List Char)) :
    List (List Char) :=
  match cs, rest with
  | d :: _, g :: gs => if isExtendChar d then (c :: g) :: gs else [c] :: g :: gs
  | _, _ => [[c]]

/-- Model of str::graphemes(true) from the unicode-segmentation crate,
restricted as described at `isExtendChar`: a cluster is a base code point
together with the following run of extend code points (UAX #29 rule GB9:
never break before an Extend character). -/
def graphemes : List Char → List (List Char)
  | [] => []
  | c :: cs => graphemeCons c cs (graphemes cs)

/-- Model of the constant MAX_HISTORY_SIZE. -/
def MAX_HISTORY_SIZE : Nat := 100

/-- Model of struct SearchState: the search-bar editor.  The query is a
list of code points; `cursorPos` is the grapheme index maintained by the
source. -/
structure SearchState where
  cursorPos : Nat
  query : List Char
  history : List (List Char)
  historyIndex : Option Nat
  deriving DecidableEq, Repr

namespace SearchState

/-- Model of SearchState::default(). -/
def empty : SearchState := ⟨0, [], [], none⟩

/-- Model of SearchState::grapheme_count. -/
def graphemeCount (s : SearchState) : Nat := (graphemes s.query).length

/-- Model of SearchState::grapheme_index_to_byte_index, at code-point
granularity: the offset of grapheme `graphemeIdx` in `q`, or the length of
`q` when there is no such grapheme (the source's unwrap_or(len)). -/
def graphemeIndexToByteIndex (q : List Char) (graphemeIdx : Nat) : Nat :=
  (((graphemes q).take graphemeIdx).map List.length).sum

/-- Model of SearchState::exit_history_browsing. -/
def exit_history_browsing (s : SearchState) : SearchState :=
  { s with historyIndex := none }

/-- Model of SearchState::clear. -/
def clear (s : SearchState) : SearchState :=
  { s.exit_history_browsing with query := [], cursorPos := 0 }

/-- Model of SearchState::has_query. -/
def has_query (s : SearchState) : Bool := !s.query.isEmpty

/-- Model of SearchState::delete_char_before_cursor. -/
def delete_char_before_cursor (s : SearchState) : SearchState :=
  if s.cursorPos > 0 then
    let byteStart := graphemeIndexToByteIndex s.query (s.cursorPos - 1)
    let byteEnd := graphemeIndexToByteIndex s.query s.cursorPos
    { s with query := s.query.take byteStart ++ s.query.drop byteEnd,
             cursorPos := s.cursorPos - 1 }
  else s

/-- Model of SearchState::delete_char_after_cursor. -/
def delete_char_after_cursor (s : SearchState) : SearchState :=
  if s.cursorPos < s.graphemeCount then
    let byteStart := graphemeIndexToByteIndex s.query s.cursorPos
    let byteEnd := graphemeIndexToByteIndex s.query (s.cursorPos + 1)
    { s with query := s.query.take byteStart ++ s.query.drop byteEnd }
  else s

/-- Model of str::trim_end under char::is_whitespace. -/
def trimEnd (l : List Char) : List Char :=
  (l.reverse.dropWhile isWsChar).reverse

/-- Model of str::rfind(char::is_whitespace): the index of the last
whitespace code point. -/
def rfindWs (l : List Char) : Option Nat :=
  match l.reverse.findIdx? isWsChar with
  | some i => some (l.length - 1 - i)
  | none => none

/-- Model of SearchState::delete_word_before_cursor.  The source computes
byte_start as the byte after the found whitespace byte; at code-point
granularity this is the index after the found whitespace code point (the
two agree whenever the whitespace character is one UTF-8 byte, e.g. an
ASCII space). -/
def delete_word_before_cursor (s : SearchState) : SearchState :=
  if s.cursorPos = 0 then s
  else
    let byteCursor := graphemeIndexToByteIndex s.query s.cursorPos
    let beforeCursor := s.query.take byteCursor
    let trimmed := trimEnd beforeCursor
    match rfindWs trimmed with
    | some pos =>
      let byteStart := pos + 1
      let newQuery := s.query.take byteStart ++ s.query.drop byteCursor
      { s with query := newQuery,
               cursorPos := (graphemes (newQuery.take byteStart)).length }
    | none =>
      { s with query := s.query.drop byteCursor, cursorPos := 0 }

/-- Model of SearchState::delete_word_after_cursor. -/
def delete_word_after_cursor (s : SearchState) : SearchState :=
  if s.cursorPos ≥ s.graphemeCount then s
  else
    let byteCursor := graphemeIndexToByteIndex s.query s.cursorPos
    let afterCursor := s.query.drop byteCursor
    let trimmed := afterCursor.dropWhile isWsChar
    let trimmedOffset := afterCursor.length - trimmed.length
    match trimmed.findIdx? isWsChar with
    | some pos =>
      let byteEnd := byteCursor + trimmedOffset + pos
      { s with query := s.query.take byteCursor ++ s.query.drop byteEnd }
    | none =>
      { s with query := s.query.take byteCursor }

/-- Model of SearchState::insert_char_at_cursor. -/
def insert_char_at_cursor (s : SearchState) (c : Char) : SearchState :=
  let bytePos := graphemeIndexToByteIndex s.query s.cursorPos
  { s with query := s.query.take bytePos ++ c :: s.query.drop bytePos,
           cursorPos := s.cursorPos + 1 }

/-- Model of SearchState::move_cursor_left. -/
def move_cursor_left (s : SearchState) : SearchState :=
  if s.cursorPos > 0 then { s with cursorPos := s.cursorPos - 1 } else s

/-- Model of SearchState::move_cursor_right. -/
def move_cursor_right (s : SearchState) : SearchState :=
  if s.cursorPos < s.graphemeCount then { s with cursorPos := s.cursorPos + 1 }
  else s

/-- Model of SearchState::move_cursor_to_start. -/
def move_cursor_to_start (s : SearchState) : SearchState :=
  { s with cursorPos := 0 }

/-- Model of SearchState::move_cursor_to_end. -/
def move_cursor_to_end (s : SearchState) : SearchState :=
  { s with cursorPos := s.graphemeCount }

/-- Model of SearchState::move_cursor_left_word. -/
def move_cursor_left_word (s : SearchState) : SearchState :=
  if s.cursorPos = 0 then s
  else
    let byteCursor := graphemeIndexToByteIndex s.query s.cursorPos
    let beforeCursor := s.query.take byteCursor
    let trimmed := trimEnd beforeCursor
    if trimmed.isEmpty then { s with cursorPos := 0 }
    else
      match rfindWs trimmed with
      | some pos =>
        { s with cursorPos := (graphemes (s.query.take (pos + 1))).length }
      | none => { s with cursorPos := 0 }

/-- Model of SearchState::move_cursor_right_word. -/
def move_cursor_right_word (s : SearchState) : SearchState :=
  let graphemeCnt := s.graphemeCount
  if s.cursorPos ≥ graphemeCnt then s
  else
    let byteCursor := graphemeIndexToByteIndex s.query s.cursorPos
    let afterCursor := s.query.drop byteCursor
    let trimmed := afterCursor.dropWhile (fun c => !isWsChar c)
    if trimmed.isEmpty then { s with cursorPos := graphemeCnt }
    else
      let trimmed2 := trimmed.dropWhile isWsChar
      let bytesSkipped := afterCursor.length - trimmed2.length
      let bytePos := byteCursor + bytesSkipped
      { s with cursorPos := (graphemes (s.query.take bytePos)).length }

/-- Model of SearchState::navigate_history_up. -/
def navigate_history_up (s : SearchState) : SearchState :=
  if s.history.isEmpty then s
  else
    let newIndex : Option (Option Nat) :=
      match s.historyIndex with
      | none => some (some (s.history.length - 1))
      | some index => if index > 0 then some (some (index - 1)) else none
    match newIndex with
    | none => s
    | some hi =>
      let s := { s with historyIndex := hi }
      match hi with
      | some index =>
        let q := (s.history.get? index).getD []
        { s with query := q, cursorPos := (graphemes q).length }
      | none => s

/-- Model of SearchState::navigate_history_down.  The source indexes
history with index + 1 after the guard index < history.len() - 1; the
embedding uses the same guard with natural subtraction. -/
def navigate_history_down (s : SearchState) : SearchState :=
  match s.historyIndex with
  | none => s
  | some index =>
    if index < s.history.length - 1 then
      let q := (s.history.get? (index + 1)).getD []
      { s with historyIndex := some (index + 1), query := q,
               cursorPos := (graphemes q).length }
    else
      { s with historyIndex := none, query := [], cursorPos := 0 }

/-- Model of the first step of SearchState::save_to_history: remove an
existing entry equal to the query, if any (position finds the first). -/
def removeExisting (history : List (List Char)) (query : List Char) :
    List (List Char) :=
  match history.findIdx? (fun entry => entry = query) with
  | some pos => history.eraseIdx pos
  | none => history

/-- Model of SearchState::save_to_history. -/
def save_to_history (s : SearchState) : SearchState :=
  if s.query.isEmpty then s
  else
    let history := removeExisting s.history s.query
    let history := history ++ [s.query]
    let history :=
      if history.length > MAX_HISTORY_SIZE then history.drop 1 else history
    { s with history := history }

end SearchState

/-- Helper for `splitWhitespace`: prepend the non-whitespace code point
`c` to the split `rest` of the remaining string `cs`: when `cs` continues
the same word, `c` joins the first word of `rest`, otherwise `c` is a word
of its own. -/
def splitWhitespaceCons (c : Char) (cs : List Char)
    (rest : List (List Char)) : List (List Char) :=
  match cs, rest with
  | d :: _, w :: ws => if isWsChar d then [c] :: w :: ws else (c :: w) :: ws
  | _, _ => [[c]]

/-- Model of str::split_whitespace: maximal runs of non-whitespace code
points, with whitespace discarded. -/
def splitWhitespace : List Char → List (List Char)
  | [] => []
  | c :: cs =>
    if isWsChar c then splitWhitespace cs
    else splitWhitespaceCons c cs (splitWhitespace cs)

/-- Model of str::split_once over the separator character: split at the
first occurrence, none when the separator does not occur. -/
def splitOnce (sep : Char) : List Char → Option (List Char × List Char)
  | [] => none
  | c :: cs =>
    if c = sep then some ([], cs)
    else (splitOnce sep cs).map (fun p => (c :: p.1, p.2))

/-- Observable state of the FetchOptions HashMap: an association list with
at most one binding per key, updated in place. -/
abbrev OptionsMap := List (List Char × List Char)

/-- Model of HashMap::insert as observed through get: replace the binding
of the key when present, otherwise add a binding. -/
def hmInsert : OptionsMap → List Char → List Char → OptionsMap
  | [], k, v => [(k, v)]
  | p :: ps, k, v => if p.1 = k then (k, v) :: ps else p :: hmInsert ps k v

/-- Model of HashMap::get. -/
def hmGet (m : OptionsMap) (k : List Char) : Option (List Char) :=
  (m.find? (fun p => p.1 = k)).map (fun p => p.2)

/-- Code points of the reserved key "query". -/
def strQuery : List Char := ['q', 'u', 'e', 'r', 'y']

/-- Model of the free-text accumulation in parse_fetch_options: push a
separating space unless the accumulator is still empty, then the word. -/
def appendRemaining (rem w : List Char) : List Char :=
  if rem.isEmpty then w else rem ++ ' ' :: w

/-- Model of one iteration of the word loop of parse_fetch_options: a
word that strips the prefix '@' and splits on the first '=' updates the
options map, anything else extends the remaining free text. -/
def parseStep (acc : OptionsMap × List Char) (w : List Char) :
    OptionsMap × List Char :=
  match w with
  | c :: rest =>
    if c = '@' then
      match splitOnce '=' rest with
      | some (k, v) => (hmInsert acc.1 k v, acc.2)
      | none => (acc.1, appendRemaining acc.2 w)
    else (acc.1, appendRemaining acc.2 w)
  | [] => (acc.1, appendRemaining acc.2 w)

/-- Model of parse_fetch_options. -/
def parseFetchOptions (query : List Char) : OptionsMap :=
  let acc := (splitWhitespace query).foldl parseStep ([], [])
  if acc.2.isEmpty then acc.1 else hmInsert acc.1 strQuery acc.2

/-- Model of struct ListState: the fetched items plus the highlighted
index held by the wrapped ratatui widgets::ListState. -/
structure ListModel (T : Type) where
  items : List T
  selected : Option Nat
  deriving DecidableEq, Repr

namespace ListModel

/-- Model of ListState::new. -/
def new (T : Type) : ListModel T := ⟨[], none⟩

/-- Model of ListState::append_items. -/
def append_items (l : ListModel T) (newItems : List T) : ListModel T :=
  { l with items := l.items ++ newItems }

/-- Model of ListState::replace_items. -/
def replace_items (l : ListModel T) (newItems : List T) : ListModel T :=
  { items := newItems,
    selected := if newItems.isEmpty then none else some 0 }

/-- Model of ratatui widgets::ListState::select_next, called by
ListState::select_next: the next index is selected.map_or(0,
saturating_add 1); no clamping to the item count happens here (the widget
clamps only while rendering). -/
def select_next (l : ListModel T) : ListModel T :=
  { l with selected := some (match l.selected with
      | none => 0
      | some i => satAdd i 1) }

/-- Model of ratatui widgets::ListState::select_previous, called by
ListState::select_previous: the previous index is
selected.map_or(usize::MAX, saturating_sub 1). -/
def select_previous (l : ListModel T) : ListModel T :=
  { l with selected := some (match l.selected with
      | none => usizeMax
      | some i => i - 1) }

/-- Model of ListState::select_page_up. -/
def select_page_up (l : ListModel T) (pageSize : Nat) : ListModel T :=
  if pageSize = 0 || l.items.isEmpty then l
  else
    let current := l.selected.getD 0
    let jump := pageSize - 1
    { l with selected := some (current - jump) }

/-- Model of ListState::select_page_down. -/
def select_page_down (l : ListModel T) (pageSize : Nat) : ListModel T :=
  if pageSize = 0 || l.items.isEmpty then l
  else
    let current := l.selected.getD 0
    let jump := pageSize - 1
    { l with selected := some (satAdd current jump) }

/-- Invariant claimed by the specification for the item list. -/
def SelectedInBounds (l : ListModel T) : Prop :=
  ∀ i, l.selected = some i → i < l.items.length

end ListModel

/-- Model of enum Focus. -/
inductive Focus where
  | list
  | searchBar
  deriving DecidableEq, Repr

/-- Model of enum Mode. -/
inductive Mode where
  | normal (f : Focus)
  | help (f : Focus)
  deriving DecidableEq, Repr

/-- Model of enum UserAction. -/
inductive UserAction where
  | noAction
  | quit
  | select (index : Nat)
  deriving DecidableEq, Repr

/-- Model of the crossterm KeyCode constructors reachable by the help
handler; `otherKey` stands for every remaining constructor (function keys,
Insert, media keys, ...), all of which fall into the handler's final
wildcard arm exactly as the constructors listed here that the handler does
not name. -/
inductive KeyCode where
  | esc
  | enter
  | tab
  | backTab
  | up
  | down
  | left
  | right
  | pageUp
  | pageDown
  | home
  | endKey
  | backspace
  | deleteKey
  | char (c : Char)
  | otherKey
  deriving DecidableEq, Repr

/-- Model of crossterm KeyModifiers as the three flags the source reads. -/
structure Modifiers where
  ctrl : Bool
  alt : Bool
  shift : Bool
  deriving DecidableEq, Repr

/-- Modifiers with no flag set. -/
def Modifiers.noMods : Modifiers := ⟨false, false, false⟩

/-- Model of App::handle_key_event_help_widget: the mode after the key and
the returned UserAction.  The source's first arm (Char('c') with CONTROL)
is guarded; on guard failure the scrutinee falls through to the next arm,
which an if-then-else reproduces. -/
def handleKeyEventHelpWidget (mode : Mode) (code : KeyCode)
    (modifiers : Modifiers) : Mode × UserAction :=
  if code = KeyCode.char 'c' ∧ modifiers.ctrl then (mode, UserAction.quit)
  else
    match code with
    | KeyCode.esc | KeyCode.enter | KeyCode.char _ =>
      match mode with
      | Mode.help previousFocus => (Mode.normal previousFocus, UserAction.noAction)
      | _ => (mode, UserAction.noAction)
    | _ => (mode, UserAction.noAction)

/-- Model of struct PaginationState. -/
structure PaginationModel where
  currentPage : Nat
  perPage : Nat
  hasNextPage : Bool
  deriving DecidableEq, Repr

namespace PaginationModel

/-- Model of PaginationState::default(). -/
def default : PaginationModel :=
  { hasNextPage := true, currentPage := 0, perPage := 0 }

/-- Model of PaginationState::reset. -/
def reset (p : PaginationModel) : PaginationModel :=
  { p with currentPage := 0, hasNextPage := true }

end PaginationModel

/-- Record of a spawned fetch worker that has not yet completed: the id of
the channel its sender half belongs to, and the page and merge-mode tags of
the FetchResult threaded through the fetch callback. -/
structure PendingFetch where
  id : Nat
  page : Nat
  append : Bool
  deriving DecidableEq, Repr

/-- Message sitting in a fetch channel: the FetchResult a completed worker
sent, i.e. the threaded tags together with the items and more_items flag
the external callback filled in via with_items / with_more_items. -/
structure FetchMsg (T : Type) where
  id : Nat
  page : Nat
  append : Bool
  items : List T
  more : Bool
  deriving DecidableEq, Repr

/-- Model of struct ItemFetcher together with the channels and worker
threads it spawns.  Channels are named by allocation order (`nextId`);
`slot` is FetchStatus: none for Idle, some id for Fetching(rx) where rx is
the receiver of channel id.  `pending` holds workers that have not sent
yet, `mailbox` holds sent results not yet received.  A message whose
channel id is no longer in the slot is exactly a send onto a channel whose
receiver was dropped: it can never be received.  The external fetch
callback itself is left to the environment, which chooses the items and
more_items of each completion; errors (which abort the session) are not
modelled. -/
structure FetcherModel (T : Type) where
  slot : Option Nat
  nextId : Nat
  pending : List PendingFetch
  mailbox : List (FetchMsg T)
  options : OptionsMap
  deriving DecidableEq, Repr

namespace FetcherModel

/-- Model of ItemFetcher::new composed with FetchStatus::default. -/
def new (T : Type) : FetcherModel T :=
  { slot := none, nextId := 0, pending := [], mailbox := [], options := [] }

/-- Model of ItemFetcher::fetch: record the options, spawn a worker for
the given page and merge-mode, and install a fresh channel as the slot. -/
def fetch (f : FetcherModel T) (options : OptionsMap) (page : Nat)
    (append : Bool) : FetcherModel T :=
  { f with options := options,
           pending := f.pending ++ [⟨f.nextId, page, append⟩],
           slot := some f.nextId,
           nextId := f.nextId + 1 }

/-- Model of ItemFetcher::is_fetching. -/
def is_fetching (f : FetcherModel T) : Bool := f.slot.isSome

/-- Model of ItemFetcher::poll_result: when the slot's channel holds a
message, consume it and reset the slot to Idle; otherwise change
nothing. -/
def poll_result (f : FetcherModel T) : FetcherModel T × Option (FetchMsg T) :=
  match f.slot with
  | some id =>
    match f.mailbox.find? (fun m => m.id = id) with
    | some msg =>
      ({ f with slot := none, mailbox := f.mailbox.eraseP (fun m => m.id = id) },
       some msg)
    | none => (f, none)
  | none => (f, none)

/-- Model of ItemFetcher::reset: drop the receiver, leaving the worker
running. -/
def reset (f : FetcherModel T) : FetcherModel T := { f with slot := none }

/-- Environment step: the worker of channel `id` completes and sends the
FetchResult it was handed, with `items` and `more` as chosen by the
external fetch callback.  A send is a no-op when no such worker exists. -/
def deliver (f : FetcherModel T) (id : Nat) (items : List T) (more : Bool) :
    FetcherModel T :=
  match f.pending.find? (fun p => p.id = id) with
  | some p =>
    { f with pending := f.pending.eraseP (fun p => p.id = id),
             mailbox := f.mailbox ++ [⟨id, p.page, p.append, items, more⟩] }
  | none => f

/-- Well-formedness of the channel bookkeeping: every allocated channel id
is below `nextId`, and the occupied slot is always the most recently
allocated channel. -/
def Wf (f : FetcherModel T) : Prop :=
  (∀ i, f.slot = some i → i + 1 = f.nextId) ∧
  (∀ p ∈ f.pending, p.id < f.nextId) ∧
  (∀ m ∈ f.mailbox, m.id < f.nextId)

end FetcherModel

/-- Model of the constant LOAD_THRESHOLD in App::update. -/
def LOAD_THRESHOLD : Nat := 1

/-- Model of struct App restricted to the fields the update loop and fetch
scheduling read and write (the search editor, modelled separately as
`SearchState`, is not consulted by these). -/
structure AppModel (T : Type) where
  mode : Mode
  item_fetcher : FetcherModel T
  list : ListModel T
  pagination : PaginationModel
  deriving DecidableEq, Repr

namespace AppModel

/-- Model of App::new (list empty, pagination default, fetcher idle,
initial mode Normal(List)). -/
def new (T : Type) : AppModel T :=
  { mode := Mode.normal Focus.list,
    item_fetcher := FetcherModel.new T,
    list := ListModel.new T,
    pagination := PaginationModel.default }

/-- Model of App::fetch_and_append_items. -/
def fetch_and_append_items (s : AppModel T) (options : OptionsMap) :
    AppModel T :=
  let page := s.pagination.currentPage + 1
  { s with item_fetcher := s.item_fetcher.fetch options page true }

/-- Model of App::fetch_and_replace_items. -/
def fetch_and_replace_items (s : AppModel T) (options : OptionsMap) :
    AppModel T :=
  let fetcher := s.item_fetcher.reset
  let pagination := s.pagination.reset
  { s with pagination := pagination,
           item_fetcher := fetcher.fetch options 1 false }

/-- Model of the reached_end_of_page condition computed by App::update. -/
def reachedEndOfPage (s : AppModel T) : Bool :=
  decide (s.mode = Mode.normal Focus.list) &&
    match s.list.selected with
    | some selected =>
      decide (s.list.items.length - (selected + 1) < LOAD_THRESHOLD)
    | none => true

/-- Model of App::update: schedule a lookahead Append fetch when idle with
more pages available and the selection at the end of the loaded items,
then poll the fetcher and merge a present result. -/
def update (s : AppModel T) : AppModel T :=
  let s :=
    if (!s.item_fetcher.is_fetching && s.pagination.hasNextPage &&
        reachedEndOfPage s) = true then
      s.fetch_and_append_items s.item_fetcher.options
    else s
  match s.item_fetcher.poll_result with
  | (fetcher, some msg) =>
    let list :=
      if msg.append then s.list.append_items msg.items
      else s.list.replace_items msg.items
    let pagination :=
      { s.pagination with currentPage := msg.page, hasNextPage := msg.more }
    let list := if list.selected = none then list.select_next else list
    { s with item_fetcher := fetcher, list := list, pagination := pagination }
  | (fetcher, none) => { s with item_fetcher := fetcher }

/-- Environment and input events driving the model: a render-loop tick
(App::update), the completion of worker `id`, the Down key in
Normal(List) focus, and Enter in the search bar restricted to its
scheduling effect (App::fetch_and_replace_items). -/
inductive Ev (T : Type) where
  | tick
  | deliver (id : Nat) (items : List T) (more : Bool)
  | keyDown
  | replaceSearch (options : OptionsMap)

/-- One step of the event system. -/
def step (s : AppModel T) : Ev T → AppModel T
  | Ev.tick => s.update
  | Ev.deliver id items more =>
    { s with item_fetcher := s.item_fetcher.deliver id items more }
  | Ev.keyDown => { s with list := s.list.select_next }
  | Ev.replaceSearch options => s.fetch_and_replace_items options

/-- Run a list of events from a state. -/
def run (s : AppModel T) : List (Ev T) → AppModel T
  | [] => s
  | e :: es => (s.step e).run es

end AppModel

/-- Raw search-bar inputs quantified over by the parser claims: a token is
either a structured @key=value filter or a free word. -/
inductive Tok where
  | opt (key value : List Char)
  | word (w : List Char)
  deriving DecidableEq, Repr

/-- Property of a word that is not itself of the @key=value shape: when it
starts with '@', the remainder holds no '='. -/
def noOptionShape (w : List Char) : Prop :=
  match w with
  | c :: rest => c = '@' → '=' ∉ rest
  | [] => True

instance (w : List Char) : Decidable (noOptionShape w) :=
  match w with
  | c :: rest => inferInstanceAs (Decidable (c = '@' → '=' ∉ rest))
  | [] => inferInstanceAs (Decidable True)

namespace Tok

/-- Text of a token as it appears in the raw input. -/
def render : Tok → List Char
  | opt k v => '@' :: (k ++ '=' :: v)
  | word w => w

/-- Well-formedness of a token: keys carry no whitespace and no '=' (the
split is on the first '='), values carry no whitespace, and a free word is
a nonempty whitespace-free string that is not itself of the @key=value
shape. -/
def Wf : Tok → Prop
  | opt k v =>
    (∀ c ∈ k, isWsChar c = false ∧ c ≠ '=') ∧ (∀ c ∈ v, isWsChar c = false)
  | word w =>
    w ≠ [] ∧ (∀ c ∈ w, isWsChar c = false) ∧ noOptionShape w

instance (t : Tok) : Decidable t.Wf :=
  match t with
  | opt k v => inferInstanceAs (Decidable
      ((∀ c ∈ k, isWsChar c = false ∧ c ≠ '=') ∧
        (∀ c ∈ v, isWsChar c = false)))
  | word w => inferInstanceAs (Decidable
      (w ≠ [] ∧ (∀ c ∈ w, isWsChar c = false) ∧ noOptionShape w))

end Tok

/-- Raw input formed by interleaving the given tokens, whitespace
separated. -/
def joinTokens : List Tok → List Char
  | [] => []
  | [t] => t.render
  | t :: ts => t.render ++ ' ' :: joinTokens ts

/-- Free words of a token sequence, in their original relative order. -/
def freeWords (ts : List Tok) : List (List Char) :=
  ts.filterMap (fun t => match t with | Tok.word w => some w | _ => none)

/-- Words rejoined with single spaces. -/
def joinWords : List (List Char) → List Char
  | [] => []
  | [w] => w
  | w :: ws => w ++ ' ' :: joinWords ws

/-- Value of the last @key=value token for the given key, if any. -/
def lastOpt : List Tok → List Char → Option (List Char)
  | [], _ => none
  | t :: ts, k =>
    match lastOpt ts k with
    | some v => some v
    | none =>
      match t with
      | Tok.opt k2 v => if k2 = k then some v else none
      | _ => none

/-- Submit each query of `qs` in turn: set it as the editor text and save
it to the history, as pressing Enter in the search bar does. -/
def submitAll (qs : List (List Char)) (s : SearchState) : SearchState :=
  qs.foldl (fun s q => SearchState.save_to_history { s with query := q }) s

/-- Code point U+0301 COMBINING ACUTE ACCENT. -/
def combiningAcute : Char := Char.ofNat 0x301

/-- Events that are not a new search: anything but Enter in the search
bar.  Used to express that a property persists until the next search. -/
def AppModel.Ev.notSearch {T : Type} : AppModel.Ev T → Prop
  | AppModel.Ev.replaceSearch _ => False
  | _ => True

/-- Events that neither start a new search nor complete the worker of
channel `id`. -/
def AppModel.Ev.notSearchNotDeliverTo {T : Type} (id : Nat) :
    AppModel.Ev T → Prop
  | AppModel.Ev.replaceSearch _ => False
  | AppModel.Ev.deliver i _ _ => i ≠ id
  | _ => True

/-- Concatenating the grapheme clusters of a string recovers the string. -/
theorem graphemes_join (q : List Char) : (graphemes q).flatten = q := by
  induction q with
  | nil => rfl
  | cons c cs ih =>
    show (graphemeCons c cs (graphemes cs)).flatten = c :: cs
    cases hcs : cs with
    | nil => simp [graphemeCons]
    | cons d ds =>
      rw [hcs] at ih
      cases hg : graphemes (d :: ds) with
      | nil => rw [hg] at ih; simp at ih
      | cons g gs =>
        rw [hg] at ih
        simp only [List.flatten_cons] at ih
        by_cases hd : isExtendChar d
        · simp [graphemeCons, hd, ih]
        · simp [graphemeCons, hd, ih]

/-- C2: the claimed cursor bound 0 ≤ cursor ≤ grapheme_count(query) is
violated by the code: from the empty editor, inserting 'e' and then the
combining acute accent U+0301 (two insert operations) leaves cursor = 2
while the query "é" is a single grapheme cluster, because
insert_char_at_cursor always advances the cursor by one even when the
inserted code point extends the preceding cluster. -/
theorem cursor_bound_violated_by_combining_insert :
    ((SearchState.empty.insert_char_at_cursor 'e').insert_char_at_cursor
        combiningAcute).cursorPos = 2 ∧
    ((SearchState.empty.insert_char_at_cursor 'e').insert_char_at_cursor
        combiningAcute).graphemeCount = 1 := by
  decide

/-- C3: the claimed grapheme round-trip fails on the code: from the empty
editor, inserting the cluster "é" one code point at a time and then
invoking delete-before leaves query = "é" and cursor = 1 instead of
restoring the empty query and cursor 0 — the deletion removes nothing
because the cursor (2) already exceeds the grapheme count (1). -/
theorem grapheme_round_trip_violated :
    SearchState.empty.query = [] ∧ SearchState.empty.cursorPos = 0 ∧
    (((SearchState.empty.insert_char_at_cursor 'e').insert_char_at_cursor
        combiningAcute).delete_char_before_cursor).query =
      ['e', combiningAcute] ∧
    (((SearchState.empty.insert_char_at_cursor 'e').insert_char_at_cursor
        combiningAcute).delete_char_before_cursor).cursorPos = 1 := by
  decide

/-- C9: in the Help states, Ctrl+C indeed yields Quit, but the key-press
Up (like every key other than Esc, Enter and plain characters) leaves the
controller in Help instead of returning it to Normal mode as the claim
(and the help footer rendered by the code itself) states. -/
theorem help_mode_up_key_stays_in_help :
    handleKeyEventHelpWidget (Mode.help Focus.list) (KeyCode.char 'c')
        ⟨true, false, false⟩ = (Mode.help Focus.list, UserAction.quit) ∧
    handleKeyEventHelpWidget (Mode.help Focus.list) KeyCode.up
        Modifiers.noMods = (Mode.help Focus.list, UserAction.noAction) ∧
    handleKeyEventHelpWidget (Mode.help Focus.searchBar) KeyCode.up
        Modifiers.noMods = (Mode.help Focus.searchBar, UserAction.noAction) := by
  decide

/-- C8 counterexample: select_next on the freshly created empty list sets
selected_index = Some(0) while the list holds 0 items, so the invariant
"selected_index is Some(i) only if i < len" does not hold after every
ItemList operation. -/
theorem select_next_on_empty_list_breaks_bound :
    ((ListModel.new Nat).select_next).selected = some 0 ∧
    ((ListModel.new Nat).select_next).items.length = 0 ∧
    ¬ ((ListModel.new Nat).select_next).SelectedInBounds := by
  refine ⟨rfl, rfl, fun h => ?_⟩
  have h0 := h 0 rfl
  simp [ListModel.new, ListModel.select_next] at h0

/-- C8 (amended): replace establishes the bound invariant and append
preserves it, but the selection-moving operations do not clamp the index
to the item count (ratatui clamps only while rendering); select_page_down
moves the highlighted index by n.saturating_sub(1) with no upper clamp,
and is a no-op when n == 0 or the list is empty. -/
theorem list_selection_ops_spec :
    (∀ (T : Type) (l : ListModel T) (newItems : List T),
      (l.replace_items newItems).SelectedInBounds) ∧
    (∀ (T : Type) (l : ListModel T) (newItems : List T),
      l.SelectedInBounds → (l.append_items newItems).SelectedInBounds) ∧
    (∀ (T : Type) (l : ListModel T), l.select_page_down 0 = l) ∧
    (∀ (T : Type) (l : ListModel T) (n : Nat), l.items = [] →
      l.select_page_down n = l) ∧
    (∀ (T : Type) (l : ListModel T) (n : Nat), n ≠ 0 → l.items ≠ [] →
      (l.select_page_down n).selected =
        some (satAdd (l.selected.getD 0) (n - 1))) := by
  refine ⟨?_, ?_, ?_, ?_, ?_⟩
  · intro T l newItems i hi
    simp only [ListModel.replace_items] at hi
    by_cases hne : newItems.isEmpty
    · simp [hne] at hi
    · simp only [hne, if_false] at hi
      cases hi
      simp only [ListModel.replace_items]
      have := List.isEmpty_iff.not.mp hne
      cases newItems with
      | nil => simp at this
      | cons a as => simp
  · intro T l newItems h i hi
    simp only [ListModel.append_items] at hi
    have := h i hi
    simp only [ListModel.append_items, List.length_append]
    omega
  · intro T l
    simp [ListModel.select_page_down]
  · intro T l n h
    simp [ListModel.select_page_down, h]
  · intro T l n hn hne
    have h1 : (n = 0 || l.items.isEmpty) = false := by
      simp [hn, List.isEmpty_iff, hne]
    simp [ListModel.select_page_down, h1]

/-- C8 amended claim witness at concrete inputs. -/
theorem list_selection_ops_spec_witness :
    ((ListModel.new Nat).replace_items [1, 2, 3]).SelectedInBounds ∧
    (((ListModel.new Nat).replace_items [1, 2, 3]).append_items
        [4]).SelectedInBounds ∧
    ((ListModel.mk [1, 2, 3] (some 1)).select_page_down 5).selected =
      some (satAdd 1 4) := by
  refine ⟨list_selection_ops_spec.1 Nat _ _, ?_, ?_⟩
  · exact list_selection_ops_spec.2.1 Nat _ [4]
      (list_selection_ops_spec.1 Nat _ _)
  · exact list_selection_ops_spec.2.2.2.2 Nat _ 5 (by decide) (by decide)

theorem removeExisting_cons_eq (q : List Char) (rest : List (List Char)) :
    SearchState.removeExisting (q :: rest) q = rest := by
  unfold SearchState.removeExisting
  rw [List.findIdx?_cons]
  simp

theorem removeExisting_cons_ne {x q : List Char} (rest : List (List Char))
    (hx : x ≠ q) :
    SearchState.removeExisting (x :: rest) q =
      x :: SearchState.removeExisting rest q := by
  unfold SearchState.removeExisting
  rw [List.findIdx?_cons, if_neg (by simp [hx]), List.findIdx?_succ]
  cases hr : List.findIdx? (fun entry => entry = q) rest with
  | none => simp [hr]
  | some pos => simp [hr, List.eraseIdx_cons_succ]

theorem removeExisting_of_not_mem {q : List Char} {h : List (List Char)}
    (hq : q ∉ h) : SearchState.removeExisting h q = h := by
  induction h with
  | nil => rfl
  | cons x t ih =>
    have hx : x ≠ q := fun he => hq (he ▸ List.mem_cons_self x t)
    rw [removeExisting_cons_ne t hx, ih (fun ht => hq (List.mem_cons_of_mem x ht))]

theorem removeExisting_not_mem_of_count_le_one {q : List Char}
    {h : List (List Char)} (hc : h.count q ≤ 1) :
    q ∉ SearchState.removeExisting h q := by
  induction h with
  | nil => simp [SearchState.removeExisting]
  | cons x t ih =>
    by_cases hx : x = q
    · subst hx
      rw [removeExisting_cons_eq]
      rw [List.count_cons] at hc
      simp at hc
      exact List.count_eq_zero.mp (by omega)
    · rw [removeExisting_cons_ne t hx]
      have hc' : t.count q ≤ 1 := by
        rw [List.count_cons] at hc
        omega
      intro hmem
      rcases List.mem_cons.mp hmem with he | ht
      · exact hx he.symm
      · exact ih hc' ht

theorem removeExisting_length_le (q : List Char) (h : List (List Char)) :
    (SearchState.removeExisting h q).length ≤ h.length := by
  unfold SearchState.removeExisting
  cases hr : h.findIdx? (fun entry => entry = q) with
  | none => exact le_refl _
  | some pos =>
    simp only []
    rw [List.length_eraseIdx]
    split <;> omega

theorem removeExisting_length_of_mem {q : List Char} {h : List (List Char)}
    (hq : q ∈ h) :
    (SearchState.removeExisting h q).length + 1 = h.length := by
  induction h with
  | nil => simp at hq
  | cons x t ih =>
    by_cases hx : x = q
    · subst hx
      rw [removeExisting_cons_eq]
      simp
    · rw [removeExisting_cons_ne t hx]
      have ht : q ∈ t := by
        rcases List.mem_cons.mp hq with he | ht
        · exact absurd he.symm hx
        · exact ht
      simp only [List.length_cons]
      rw [← ih ht]

theorem removeExisting_append_singleton (q : List Char)
    (l : List (List Char)) (hq : q ∉ l) :
    SearchState.removeExisting (l ++ [q]) q = l := by
  induction l with
  | nil => simpa using removeExisting_cons_eq q []
  | cons x t ih =>
    have hx : x ≠ q := fun he => hq (he ▸ List.mem_cons_self x t)
    rw [List.cons_append, removeExisting_cons_ne _ hx,
      ih (fun ht => hq (List.mem_cons_of_mem x ht))]

theorem isEmpty_false_of_ne_nil {q : List Char} (hq : q ≠ []) :
    q.isEmpty = false := by
  cases hql : q with
  | nil => exact absurd hql hq
  | cons c cs => simp

/-- Computation of save_to_history on a nonempty query. -/
theorem save_to_history_of_not_empty (s : SearchState)
    (h : s.query.isEmpty = false) :
    s.save_to_history = { s with history :=
      if (SearchState.removeExisting s.history s.query ++ [s.query]).length >
          MAX_HISTORY_SIZE then
        (SearchState.removeExisting s.history s.query ++ [s.query]).drop 1
      else SearchState.removeExisting s.history s.query ++ [s.query] } := by
  simp only [SearchState.save_to_history, h, Bool.false_eq_true, if_false]

/-- Computation of the history field after a save of a nonempty query. -/
theorem save_to_history_history (s : SearchState)
    (h : s.query.isEmpty = false) :
    s.save_to_history.history =
      if (SearchState.removeExisting s.history s.query ++ [s.query]).length >
          MAX_HISTORY_SIZE then
        (SearchState.removeExisting s.history s.query ++ [s.query]).drop 1
      else SearchState.removeExisting s.history s.query ++ [s.query] := by
  rw [save_to_history_of_not_empty s h]

/-- Saving never changes the query. -/
theorem save_to_history_query (s : SearchState) :
    s.save_to_history.query = s.query := by
  by_cases h : s.query.isEmpty
  · simp [SearchState.save_to_history, h]
  · rw [save_to_history_of_not_empty s (by simpa using h)]

/-- Shape of the history after one save of a nonempty query from a state
whose history holds the query at most once and is within capacity: the
query sits exactly once, at the most-recent end, and capacity still
holds. -/
theorem save_to_history_shape (s : SearchState) (hq : s.query ≠ [])
    (hc : s.history.count s.query ≤ 1)
    (hlen : s.history.length ≤ MAX_HISTORY_SIZE) :
    ∃ l, s.save_to_history.history = l ++ [s.query] ∧ s.query ∉ l ∧
      l.length + 1 ≤ MAX_HISTORY_SIZE := by
  have hne : s.query.isEmpty = false := isEmpty_false_of_ne_nil hq
  have hnm : s.query ∉ SearchState.removeExisting s.history s.query :=
    removeExisting_not_mem_of_count_le_one hc
  have hle : (SearchState.removeExisting s.history s.query).length ≤
      s.history.length := removeExisting_length_le s.query s.history
  have hsave := save_to_history_history s hne
  by_cases htrim : (SearchState.removeExisting s.history s.query ++
      [s.query]).length > MAX_HISTORY_SIZE
  · rw [if_pos htrim] at hsave
    simp only [List.length_append, List.length_cons, List.length_nil] at htrim
    have hpos : 1 ≤ (SearchState.removeExisting s.history s.query).length := by
      unfold MAX_HISTORY_SIZE at htrim
      omega
    rw [List.drop_append_of_le_length hpos] at hsave
    refine ⟨(SearchState.removeExisting s.history s.query).drop 1, hsave,
      fun hm => hnm (List.mem_of_mem_drop hm), ?_⟩
    have hld := List.length_drop 1 (SearchState.removeExisting s.history s.query)
    unfold MAX_HISTORY_SIZE at *
    omega
  · rw [if_neg htrim] at hsave
    simp only [List.length_append, List.length_cons, List.length_nil] at htrim
    exact ⟨_, hsave, hnm, by unfold MAX_HISTORY_SIZE at *; omega⟩

/-- History after submitting, in order, each query of a duplicate-free
list of nonempty queries into a fresh editor: the most recent
MAX_HISTORY_SIZE of them, oldest evicted first. -/
theorem submitAll_history (qs : List (List Char)) (hnd : qs.Nodup)
    (hne : ∀ q ∈ qs, q ≠ []) :
    (submitAll qs SearchState.empty).history =
      qs.drop (qs.length - MAX_HISTORY_SIZE) := by
  induction qs using List.reverseRecOn with
  | nil => rfl
  | append_singleton qs q ih =>
    obtain ⟨hnd', -, hdisj⟩ := List.nodup_append.mp hnd
    have hqnotin : q ∉ qs := fun hmem => hdisj hmem (List.mem_singleton.mpr rfl)
    have hne' : ∀ r ∈ qs, r ≠ [] :=
      fun r hr => hne r (List.mem_append_left _ hr)
    have hq : q ≠ [] := hne q (List.mem_append_right _ (List.mem_singleton.mpr rfl))
    have ihh := ih hnd' hne'
    have hstep : submitAll (qs ++ [q]) SearchState.empty =
        SearchState.save_to_history
          { submitAll qs SearchState.empty with query := q } := by
      unfold submitAll
      rw [List.foldl_append]
      rfl
    have hqe : q.isEmpty = false := isEmpty_false_of_ne_nil hq
    have hnotinh : q ∉ (submitAll qs SearchState.empty).history := by
      rw [ihh]
      exact fun hm => hqnotin (List.mem_of_mem_drop hm)
    have hrem : SearchState.removeExisting
        { submitAll qs SearchState.empty with query := q }.history q =
        (submitAll qs SearchState.empty).history :=
      removeExisting_of_not_mem hnotinh
    have hhl : (submitAll qs SearchState.empty).history.length =
        qs.length - (qs.length - MAX_HISTORY_SIZE) := by
      rw [ihh, List.length_drop]
    rw [hstep, save_to_history_history _ hqe]
    simp only [hrem]
    by_cases hbig : MAX_HISTORY_SIZE ≤ qs.length
    · have hcond : ((submitAll qs SearchState.empty).history ++ [q]).length >
          MAX_HISTORY_SIZE := by
        simp only [List.length_append, List.length_cons, List.length_nil]
        unfold MAX_HISTORY_SIZE at *
        omega
      rw [if_pos hcond]
      have hpos : 1 ≤ (submitAll qs SearchState.empty).history.length := by
        rw [hhl]
        unfold MAX_HISTORY_SIZE at *
        omega
      rw [List.drop_append_of_le_length hpos, ihh, List.drop_drop]
      have harith : qs.length - MAX_HISTORY_SIZE + 1 ≤ qs.length := by
        unfold MAX_HISTORY_SIZE at *
        omega
      rw [← List.drop_append_of_le_length harith]
      congr 1
      simp only [List.length_append, List.length_cons, List.length_nil]
      omega
    · have hcond : ¬ (((submitAll qs SearchState.empty).history ++ [q]).length >
          MAX_HISTORY_SIZE) := by
        simp only [List.length_append, List.length_cons, List.length_nil]
        omega
      rw [if_neg hcond, ihh]
      have h0 : qs.length - MAX_HISTORY_SIZE = 0 := by omega
      have h1 : (qs ++ [q]).length - MAX_HISTORY_SIZE = 0 := by
        simp only [List.length_append, List.length_cons, List.length_nil]
        omega
      rw [h0, h1, List.drop_zero, List.drop_zero]

/-- C7: save_to_history is a no-op on the empty query; resubmitting a
nonempty query whose history entry count is at most one (as in every
reachable state) leaves the history unchanged, holding the query exactly
once at the most-recent position; and submitting 101 distinct nonempty
queries into a fresh editor leaves exactly 100 entries, the oldest evicted
from the front. -/
theorem save_to_history_spec :
    (∀ s : SearchState, s.query = [] → s.save_to_history = s) ∧
    (∀ s : SearchState, s.query ≠ [] → s.history.count s.query ≤ 1 →
      s.history.length ≤ MAX_HISTORY_SIZE →
      SearchState.save_to_history
          { s.save_to_history with query := s.query } =
        s.save_to_history ∧
      s.save_to_history.history.count s.query = 1 ∧
      s.save_to_history.history.getLast? = some s.query) ∧
    (∀ qs : List (List Char), qs.length = MAX_HISTORY_SIZE + 1 → qs.Nodup →
      (∀ q ∈ qs, q ≠ []) →
      (submitAll qs SearchState.empty).history = qs.drop 1 ∧
      (submitAll qs SearchState.empty).history.length = MAX_HISTORY_SIZE) := by
  refine ⟨?_, ?_, ?_⟩
  · intro s h
    unfold SearchState.save_to_history
    rw [h]
    simp
  · intro s hq hc hlen
    obtain ⟨l, hsh, hnm, hcap⟩ := save_to_history_shape s hq hc hlen
    have hqe : s.query.isEmpty = false := isEmpty_false_of_ne_nil hq
    have hq1 : s.save_to_history.query = s.query := save_to_history_query s
    have hsame : ({ s.save_to_history with query := s.query } : SearchState) =
        s.save_to_history := by
      rw [← hq1]
    refine ⟨?_, ?_, ?_⟩
    · rw [hsame, save_to_history_of_not_empty _ (hq1 ▸ hqe)]
      rw [show SearchState.removeExisting s.save_to_history.history
            s.save_to_history.query = l from by
          rw [hsh, hq1]
          exact removeExisting_append_singleton s.query l hnm]
      rw [if_neg (by
        simp only [List.length_append, List.length_cons, List.length_nil]
        omega)]
      rw [hq1, ← hsh, ← hq1]
    · rw [hsh, List.count_append]
      have h0 : l.count s.query = 0 := List.count_eq_zero.mpr hnm
      rw [h0, List.count_singleton]
      simp
    · rw [hsh, List.getLast?_concat]
  · intro qs hlen hnd hne
    have := submitAll_history qs hnd hne
    rw [hlen] at this
    have h1 : MAX_HISTORY_SIZE + 1 - MAX_HISTORY_SIZE = 1 := by omega
    rw [h1] at this
    refine ⟨this, ?_⟩
    rw [this, List.length_drop, hlen]
    omega

/-- C7 witness at concrete inputs. -/
theorem save_to_history_spec_witness :
    SearchState.save_to_history SearchState.empty = SearchState.empty ∧
    (SearchState.save_to_history
        { (SearchState.mk 0 ['b'] [] none).save_to_history with
          query := ['b'] } =
      (SearchState.mk 0 ['b'] [] none).save_to_history ∧
      (SearchState.mk 0 ['b'] [] none).save_to_history.history.count ['b'] = 1 ∧
      (SearchState.mk 0 ['b'] [] none).save_to_history.history.getLast? =
        some ['b']) ∧
    ((submitAll ((List.range 101).map (fun n => [Char.ofNat (65 + n)]))
        SearchState.empty).history =
      ((List.range 101).map (fun n => [Char.ofNat (65 + n)])).drop 1 ∧
      (submitAll ((List.range 101).map (fun n => [Char.ofNat (65 + n)]))
        SearchState.empty).history.length = MAX_HISTORY_SIZE) := by
  refine ⟨save_to_history_spec.1 SearchState.empty rfl, ?_, ?_⟩
  · exact save_to_history_spec.2.1 (SearchState.mk 0 ['b'] [] none)
      (by decide) (by decide) (by decide)
  · exact save_to_history_spec.2.2 _ (by decide) (by decide) (by decide)

theorem find?_append_left_none {α : Type} (p : α → Bool) {l1 : List α}
    (l2 : List α) (h : ∀ x ∈ l1, p x = false) :
    (l1 ++ l2).find? p = l2.find? p := by
  induction l1 with
  | nil => rfl
  | cons x t ih =>
    rw [List.cons_append,
      List.find?_cons_of_neg _ (by simp [h x (List.mem_cons_self x t)]),
      ih (fun y hy => h y (List.mem_cons_of_mem x hy))]

/-- Case analysis of ItemFetcher::poll_result: either nothing changes, or
the slot's channel held a message, which is consumed. -/
theorem poll_result_spec {T : Type} (f : FetcherModel T) :
    f.poll_result = (f, none) ∨
    ∃ id m, f.slot = some id ∧ m ∈ f.mailbox ∧ m.id = id ∧
      f.poll_result =
        ({ f with slot := none,
                  mailbox := f.mailbox.eraseP (fun m2 => m2.id = id) },
         some m) := by
  cases hs : f.slot with
  | none =>
    left
    simp [FetcherModel.poll_result, hs]
  | some id =>
    cases hfind : f.mailbox.find? (fun m => m.id = id) with
    | none =>
      left
      simp [FetcherModel.poll_result, hs, hfind]
    | some m =>
      refine Or.inr ⟨id, m, rfl, List.mem_of_find?_eq_some hfind, ?_, ?_⟩
      · simpa using List.find?_some hfind
      · simp [FetcherModel.poll_result, hs, hfind]

/-- App::update is the identity when a fetch is in flight and the slot's
channel holds no message. -/
theorem update_of_fetching_no_msg {T : Type} (s : AppModel T) (id : Nat)
    (hslot : s.item_fetcher.slot = some id)
    (hmb : ∀ m ∈ s.item_fetcher.mailbox, m.id ≠ id) :
    s.update = s := by
  have hf : s.item_fetcher.is_fetching = true := by
    simp [FetcherModel.is_fetching, hslot]
  have hfind : s.item_fetcher.mailbox.find? (fun m => m.id = id) = none :=
    List.find?_eq_none.mpr (fun m hm => by simp [hmb m hm])
  have hpoll : s.item_fetcher.poll_result = (s.item_fetcher, none) := by
    simp [FetcherModel.poll_result, hslot, hfind]
  unfold AppModel.update
  rw [hf]
  simp only [Bool.not_true, Bool.false_and, Bool.false_eq_true, if_false]
  rw [hpoll]

/-- App::update is the identity when the fetcher is idle with an empty
mailbox and no further page exists. -/
theorem update_of_no_next_page {T : Type} (s : AppModel T)
    (hnext : s.pagination.hasNextPage = false)
    (hslot : s.item_fetcher.slot = none) :
    s.update = s := by
  have hpoll : s.item_fetcher.poll_result = (s.item_fetcher, none) := by
    simp [FetcherModel.poll_result, hslot]
  unfold AppModel.update
  rw [hnext]
  simp only [Bool.and_false, Bool.false_and, Bool.false_eq_true, if_false]
  rw [hpoll]

/-- Pagination is untouched by any sequence of ticks, key presses and
completions of other workers while the slot waits on channel `id` whose
message has not been sent: has_more stays true and current_page stays 0. -/
theorem run_keeps_pagination_while_fetching {T : Type} (id : Nat)
    (evs : List (AppModel.Ev T)) :
    ∀ s : AppModel T,
      (∀ e ∈ evs, e.notSearchNotDeliverTo id) →
      s.item_fetcher.slot = some id →
      s.pagination.hasNextPage = true →
      s.pagination.currentPage = 0 →
      (∀ m ∈ s.item_fetcher.mailbox, m.id ≠ id) →
      (s.run evs).pagination.hasNextPage = true ∧
        (s.run evs).pagination.currentPage = 0 := by
  induction evs with
  | nil => intro s _ _ h2 h3 _; exact ⟨h2, h3⟩
  | cons e es ih =>
    intro s hall hslot hnext hpage hmb
    have he := hall e (List.mem_cons_self e es)
    have hes := fun x hx => hall x (List.mem_cons_of_mem e hx)
    show (((s.step e).run es).pagination.hasNextPage = true ∧
      ((s.step e).run es).pagination.currentPage = 0)
    cases e with
    | tick =>
      have hupd : s.update = s := update_of_fetching_no_msg s id hslot hmb
      show ((s.update.run es).pagination.hasNextPage = true ∧
        (s.update.run es).pagination.currentPage = 0)
      rw [hupd]
      exact ih s hes hslot hnext hpage hmb
    | deliver did ditems dmore =>
      have hdne : did ≠ id := he
      cases hfind : s.item_fetcher.pending.find? (fun p => p.id = did) with
      | none =>
        have hstep : s.step (AppModel.Ev.deliver did ditems dmore) = s := by
          simp [AppModel.step, FetcherModel.deliver, hfind]
        rw [hstep]
        exact ih s hes hslot hnext hpage hmb
      | some p =>
        have hstep : s.step (AppModel.Ev.deliver did ditems dmore) =
            { s with item_fetcher :=
              { s.item_fetcher with
                pending := s.item_fetcher.pending.eraseP (fun p2 => p2.id = did),
                mailbox := s.item_fetcher.mailbox ++
                  [⟨did, p.page, p.append, ditems, dmore⟩] } } := by
          simp [AppModel.step, FetcherModel.deliver, hfind]
        rw [hstep]
        refine ih _ hes hslot hnext hpage ?_
        intro m hm
        rcases List.mem_append.mp hm with hold | hnew
        · exact hmb m hold
        · rw [List.mem_singleton.mp hnew]
          exact hdne
    | keyDown => exact ih _ hes hslot hnext hpage hmb
    | replaceSearch o => exact absurd he (by simp [AppModel.Ev.notSearchNotDeliverTo])

/-- C6: scheduling a Replace fetch resets the slot and pagination before
scheduling page 1: the new state has current_page = 0, has_more = true and
a fresh worker for page 1 in Replace mode occupying the slot; and until
that worker's response is delivered, no sequence of ticks, key presses or
stale deliveries changes current_page or has_more. -/
theorem replace_resets_pagination {T : Type} (s : AppModel T)
    (options : OptionsMap) (hwf : s.item_fetcher.Wf) :
    (s.fetch_and_replace_items options).pagination.currentPage = 0 ∧
    (s.fetch_and_replace_items options).pagination.hasNextPage = true ∧
    (s.fetch_and_replace_items options).item_fetcher.slot =
      some s.item_fetcher.nextId ∧
    (⟨s.item_fetcher.nextId, 1, false⟩ : PendingFetch) ∈
      (s.fetch_and_replace_items options).item_fetcher.pending ∧
    ∀ evs : List (AppModel.Ev T),
      (∀ e ∈ evs, e.notSearchNotDeliverTo s.item_fetcher.nextId) →
      ((s.fetch_and_replace_items options).run evs).pagination.hasNextPage =
        true ∧
      ((s.fetch_and_replace_items options).run evs).pagination.currentPage =
        0 := by
  obtain ⟨-, -, hmb⟩ := hwf
  refine ⟨rfl, rfl, rfl, ?_, ?_⟩
  · exact List.mem_append_right _ (List.mem_singleton.mpr rfl)
  · intro evs hevs
    refine run_keeps_pagination_while_fetching s.item_fetcher.nextId evs _
      hevs rfl rfl rfl ?_
    intro m hm
    have : m.id < s.item_fetcher.nextId := hmb m hm
    omega

/-- C6 witness: a concrete replace from the initial app state. -/
theorem replace_resets_pagination_witness :
    ((AppModel.new Nat).fetch_and_replace_items []).pagination.currentPage =
      0 ∧
    ((AppModel.new Nat).fetch_and_replace_items []).pagination.hasNextPage =
      true ∧
    ((AppModel.new Nat).fetch_and_replace_items []).item_fetcher.slot =
      some (AppModel.new Nat).item_fetcher.nextId ∧
    (⟨(AppModel.new Nat).item_fetcher.nextId, 1, false⟩ : PendingFetch) ∈
      ((AppModel.new Nat).fetch_and_replace_items []).item_fetcher.pending ∧
    ∀ evs : List (AppModel.Ev Nat),
      (∀ e ∈ evs,
        e.notSearchNotDeliverTo (AppModel.new Nat).item_fetcher.nextId) →
      (((AppModel.new Nat).fetch_and_replace_items []).run
          evs).pagination.hasNextPage = true ∧
      (((AppModel.new Nat).fetch_and_replace_items []).run
          evs).pagination.currentPage = 0 :=
  replace_resets_pagination (AppModel.new Nat) []
    ⟨fun i h => by simp [AppModel.new, FetcherModel.new] at h,
     fun p h => by simp [AppModel.new, FetcherModel.new] at h,
     fun m h => by simp [AppModel.new, FetcherModel.new] at h⟩

/-- No fetch is ever scheduled by ticks, key presses or deliveries once
has_more is false with an idle slot and no outstanding worker (only a new
search could schedule one). -/
theorem run_no_fetch_when_exhausted {T : Type} (evs : List (AppModel.Ev T)) :
    ∀ s : AppModel T,
      (∀ e ∈ evs, e.notSearch) →
      s.pagination.hasNextPage = false →
      s.item_fetcher.slot = none →
      s.item_fetcher.pending = [] →
      (s.run evs).item_fetcher.nextId = s.item_fetcher.nextId ∧
        (s.run evs).item_fetcher.pending = [] := by
  induction evs with
  | nil => intro s _ _ _ h3; exact ⟨rfl, h3⟩
  | cons e es ih =>
    intro s hall hnext hslot hpend
    have he := hall e (List.mem_cons_self e es)
    have hes := fun x hx => hall x (List.mem_cons_of_mem e hx)
    show ((s.step e).run es).item_fetcher.nextId = s.item_fetcher.nextId ∧
      ((s.step e).run es).item_fetcher.pending = []
    cases e with
    | tick =>
      have hupd : s.update = s := update_of_no_next_page s hnext hslot
      show ((s.update.run es).item_fetcher.nextId = s.item_fetcher.nextId ∧
        (s.update.run es).item_fetcher.pending = [])
      rw [hupd]
      exact ih s hes hnext hslot hpend
    | deliver did ditems dmore =>
      have hstep : s.step (AppModel.Ev.deliver did ditems dmore) = s := by
        simp [AppModel.step, FetcherModel.deliver, hpend]
      rw [hstep]
      exact ih s hes hnext hslot hpend
    | keyDown => exact ih _ hes hnext hslot hpend
    | replaceSearch o => exact absurd he (by simp [AppModel.Ev.notSearch])

/-- C5 counterexample: with 30 items loaded, has_more = true, list focus,
no fetch in flight and the 3-from-last item (index 27) selected, a tick of
App::update schedules nothing: LOAD_THRESHOLD = 1 makes the lookahead fire
only when the last loaded item is selected (even index 28 does not fire),
so no Append fetch is triggered at 3-from-last. -/
theorem lookahead_not_triggered_three_from_last :
    (AppModel.update
      { mode := Mode.normal Focus.list,
        item_fetcher := ⟨none, 5, [], [], []⟩,
        list := ⟨List.range 30, some 27⟩,
        pagination := ⟨1, 10, true⟩ } : AppModel Nat) =
      { mode := Mode.normal Focus.list,
        item_fetcher := ⟨none, 5, [], [], []⟩,
        list := ⟨List.range 30, some 27⟩,
        pagination := ⟨1, 10, true⟩ } ∧
    (AppModel.update
      { mode := Mode.normal Focus.list,
        item_fetcher := ⟨none, 5, [], [], []⟩,
        list := ⟨List.range 30, some 28⟩,
        pagination := ⟨1, 10, true⟩ } : AppModel Nat) =
      { mode := Mode.normal Focus.list,
        item_fetcher := ⟨none, 5, [], [], []⟩,
        list := ⟨List.range 30, some 28⟩,
        pagination := ⟨1, 10, true⟩ } := by
  decide

/-- C5 (amended): with 30 items loaded at page 1, has_more = true, list
focus and no fetch in flight, selecting down to the last item triggers
exactly one Append fetch for page 2 (a further tick schedules nothing);
merging its response of 10 items with has_more = false leaves 40 items,
page 2 and has_more = false; and from then on no fetch is ever scheduled
by any sequence of ticks, key presses and deliveries, even with the last
item selected. -/
theorem lookahead_prefetch_spec {T : Type} (items30 extra10 : List T)
    (h30 : items30.length = 30) (h10 : extra10.length = 10)
    (n0 pp : Nat) (opts : OptionsMap) :
    (AppModel.update
      { mode := Mode.normal Focus.list,
        item_fetcher := ⟨none, n0, [], [], opts⟩,
        list := ⟨items30, some 29⟩,
        pagination := ⟨1, pp, true⟩ } : AppModel T) =
      { mode := Mode.normal Focus.list,
        item_fetcher := ⟨some n0, n0 + 1, [⟨n0, 2, true⟩], [], opts⟩,
        list := ⟨items30, some 29⟩,
        pagination := ⟨1, pp, true⟩ } ∧
    (AppModel.update
      { mode := Mode.normal Focus.list,
        item_fetcher := ⟨some n0, n0 + 1, [⟨n0, 2, true⟩], [], opts⟩,
        list := ⟨items30, some 29⟩,
        pagination := ⟨1, pp, true⟩ } : AppModel T) =
      { mode := Mode.normal Focus.list,
        item_fetcher := ⟨some n0, n0 + 1, [⟨n0, 2, true⟩], [], opts⟩,
        list := ⟨items30, some 29⟩,
        pagination := ⟨1, pp, true⟩ } ∧
    (AppModel.update
      (AppModel.step
        { mode := Mode.normal Focus.list,
          item_fetcher := ⟨some n0, n0 + 1, [⟨n0, 2, true⟩], [], opts⟩,
          list := ⟨items30, some 29⟩,
          pagination := ⟨1, pp, true⟩ }
        (AppModel.Ev.deliver n0 extra10 false)) : AppModel T) =
      { mode := Mode.normal Focus.list,
        item_fetcher := ⟨none, n0 + 1, [], [], opts⟩,
        list := ⟨items30 ++ extra10, some 29⟩,
        pagination := ⟨2, pp, false⟩ } ∧
    (items30 ++ extra10).length = 40 ∧
    ∀ evs : List (AppModel.Ev T), (∀ e ∈ evs, e.notSearch) →
      (AppModel.run
        { mode := Mode.normal Focus.list,
          item_fetcher := ⟨none, n0 + 1, [], [], opts⟩,
          list := ⟨items30 ++ extra10, some 29⟩,
          pagination := ⟨2, pp, false⟩ } evs : AppModel T).item_fetcher.nextId =
          n0 + 1 ∧
      (AppModel.run
        { mode := Mode.normal Focus.list,
          item_fetcher := ⟨none, n0 + 1, [], [], opts⟩,
          list := ⟨items30 ++ extra10, some 29⟩,
          pagination := ⟨2, pp, false⟩ } evs : AppModel T).item_fetcher.pending =
          [] := by
  refine ⟨?_, ?_, ?_, by simp [h30, h10], ?_⟩
  · simp [AppModel.update, AppModel.reachedEndOfPage, FetcherModel.is_fetching,
      AppModel.fetch_and_append_items, FetcherModel.fetch,
      FetcherModel.poll_result, h30, LOAD_THRESHOLD]
  · exact update_of_fetching_no_msg _ n0 rfl (fun m hm => by simp at hm)
  · simp [AppModel.step, FetcherModel.deliver, AppModel.update,
      AppModel.reachedEndOfPage, FetcherModel.is_fetching,
      FetcherModel.poll_result, ListModel.append_items, LOAD_THRESHOLD]
  · intro evs hevs
    exact run_no_fetch_when_exhausted evs _ hevs rfl rfl rfl

/-- C5 amended claim witness at concrete inputs. -/
theorem lookahead_prefetch_spec_witness :
    ((AppModel.update
      { mode := Mode.normal Focus.list,
        item_fetcher := ⟨none, 0, [], [], []⟩,
        list := ⟨List.range 30, some 29⟩,
        pagination := ⟨1, 10, true⟩ } : AppModel Nat) =
      { mode := Mode.normal Focus.list,
        item_fetcher := ⟨some 0, 0 + 1, [⟨0, 2, true⟩], [], []⟩,
        list := ⟨List.range 30, some 29⟩,
        pagination := ⟨1, 10, true⟩ } ∧
    (AppModel.update
      { mode := Mode.normal Focus.list,
        item_fetcher := ⟨some 0, 0 + 1, [⟨0, 2, true⟩], [], []⟩,
        list := ⟨List.range 30, some 29⟩,
        pagination := ⟨1, 10, true⟩ } : AppModel Nat) =
      { mode := Mode.normal Focus.list,
        item_fetcher := ⟨some 0, 0 + 1, [⟨0, 2, true⟩], [], []⟩,
        list := ⟨List.range 30, some 29⟩,
        pagination := ⟨1, 10, true⟩ } ∧
    (AppModel.update
      (AppModel.step
        { mode := Mode.normal Focus.list,
          item_fetcher := ⟨some 0, 0 + 1, [⟨0, 2, true⟩], [], []⟩,
          list := ⟨List.range 30, some 29⟩,
          pagination := ⟨1, 10, true⟩ }
        (AppModel.Ev.deliver 0 (List.range 10) false)) : AppModel Nat) =
      { mode := Mode.normal Focus.list,
        item_fetcher := ⟨none, 0 + 1, [], [], []⟩,
        list := ⟨List.range 30 ++ List.range 10, some 29⟩,
        pagination := ⟨2, 10, false⟩ } ∧
    (List.range 30 ++ List.range 10).length = 40 ∧
    ∀ evs : List (AppModel.Ev Nat), (∀ e ∈ evs, e.notSearch) →
      (AppModel.run
        { mode := Mode.normal Focus.list,
          item_fetcher := ⟨none, 0 + 1, [], [], []⟩,
          list := ⟨List.range 30 ++ List.range 10, some 29⟩,
          pagination := ⟨2, 10, false⟩ } evs : AppModel Nat).item_fetcher.nextId =
          0 + 1 ∧
      (AppModel.run
        { mode := Mode.normal Focus.list,
          item_fetcher := ⟨none, 0 + 1, [], [], []⟩,
          list := ⟨List.range 30 ++ List.range 10, some 29⟩,
          pagination := ⟨2, 10, false⟩ } evs : AppModel Nat).item_fetcher.pending =
          []) :=
  lookahead_prefetch_spec (List.range 30) (List.range 10) (by decide)
    (by decide) 0 10 []

theorem eraseP_append_left_none {α : Type} (p : α → Bool) {l1 : List α}
    (l2 : List α) (h : ∀ x ∈ l1, p x = false) :
    (l1 ++ l2).eraseP p = l1 ++ l2.eraseP p := by
  induction l1 with
  | nil => rfl
  | cons x t ih =>
    rw [List.cons_append, List.eraseP_cons, h x (List.mem_cons_self x t)]
    simp only [cond_false]
    rw [ih (fun y hy => h y (List.mem_cons_of_mem x hy)), List.cons_append]

/-- A message sitting in a channel older than the newest allocated one is
untouched by ItemFetcher::poll_result: only the slot's channel (always the
newest) can be received from. -/
theorem poll_keeps_orphan {T : Type} (f : FetcherModel T) (msg : FetchMsg T)
    (hm : msg ∈ f.mailbox) (hlt : msg.id + 1 < f.nextId)
    (hslot : ∀ i, f.slot = some i → i + 1 = f.nextId) :
    msg ∈ f.poll_result.1.mailbox ∧ msg.id + 1 < f.poll_result.1.nextId ∧
    ∀ i, f.poll_result.1.slot = some i → i + 1 = f.poll_result.1.nextId := by
  rcases poll_result_spec f with hp | ⟨id2, m2, hs2, hm2, hid2, hp⟩
  · rw [hp]
    exact ⟨hm, hlt, hslot⟩
  · rw [hp]
    refine ⟨?_, hlt, ?_⟩
    · have hne : ¬ (decide (msg.id = id2) = true) := by
        have := hslot id2 hs2
        simp only [decide_eq_true_eq]
        omega
      exact (@List.mem_eraseP_of_neg (FetchMsg T)
        (fun m2 => decide (m2.id = id2)) msg f.mailbox hne).mpr hm
    · intro i hi
      simp at hi

/-- Allocating a fresh channel with ItemFetcher::fetch keeps every orphan
message and the slot-is-newest invariant. -/
theorem fetch_keeps_orphan {T : Type} (f : FetcherModel T) (msg : FetchMsg T)
    (opts : OptionsMap) (page : Nat) (ap : Bool)
    (hm : msg ∈ f.mailbox) (hlt : msg.id + 1 < f.nextId) :
    msg ∈ (f.fetch opts page ap).mailbox ∧
    msg.id + 1 < (f.fetch opts page ap).nextId ∧
    ∀ i, (f.fetch opts page ap).slot = some i →
      i + 1 = (f.fetch opts page ap).nextId := by
  refine ⟨hm, by simp [FetcherModel.fetch]; omega, ?_⟩
  intro i hi
  simp only [FetcherModel.fetch, Option.some.injEq] at hi
  simp [FetcherModel.fetch, ← hi]

/-- The fetcher state after App::update is the poll of the fetcher after
the optional lookahead scheduling. -/
theorem update_item_fetcher {T : Type} (s : AppModel T) :
    s.update.item_fetcher =
      ((if (!s.item_fetcher.is_fetching && s.pagination.hasNextPage &&
          AppModel.reachedEndOfPage s) = true then
        s.fetch_and_append_items s.item_fetcher.options
       else s).item_fetcher.poll_result).1 := by
  unfold AppModel.update
  simp only []
  cases hp : (if (!s.item_fetcher.is_fetching && s.pagination.hasNextPage &&
      AppModel.reachedEndOfPage s) = true then
      s.fetch_and_append_items s.item_fetcher.options
     else s).item_fetcher.poll_result with
  | mk fetcher msgOpt =>
    cases msgOpt with
    | none => rfl
    | some m => rfl

/-- One step of the event system keeps an orphan message (one whose
channel is older than the newest) in its channel, and keeps the
slot-is-newest invariant. -/
theorem step_keeps_orphan {T : Type} (s : AppModel T) (e : AppModel.Ev T)
    (msg : FetchMsg T) (hm : msg ∈ s.item_fetcher.mailbox)
    (hlt : msg.id + 1 < s.item_fetcher.nextId)
    (hslot : ∀ i, s.item_fetcher.slot = some i →
      i + 1 = s.item_fetcher.nextId) :
    msg ∈ (s.step e).item_fetcher.mailbox ∧
    msg.id + 1 < (s.step e).item_fetcher.nextId ∧
    ∀ i, (s.step e).item_fetcher.slot = some i →
      i + 1 = (s.step e).item_fetcher.nextId := by
  cases e with
  | tick =>
    show msg ∈ s.update.item_fetcher.mailbox ∧
      msg.id + 1 < s.update.item_fetcher.nextId ∧
      ∀ i, s.update.item_fetcher.slot = some i →
        i + 1 = s.update.item_fetcher.nextId
    rw [update_item_fetcher]
    by_cases hcond : (!s.item_fetcher.is_fetching && s.pagination.hasNextPage &&
        AppModel.reachedEndOfPage s) = true
    · rw [if_pos hcond]
      obtain ⟨h1, h2, h3⟩ := fetch_keeps_orphan s.item_fetcher msg
        s.item_fetcher.options (s.pagination.currentPage + 1) true hm hlt
      exact poll_keeps_orphan _ msg h1 h2 h3
    · rw [if_neg hcond]
      exact poll_keeps_orphan s.item_fetcher msg hm hlt hslot
  | deliver did ditems dmore =>
    cases hf : s.item_fetcher.pending.find? (fun p => p.id = did) with
    | none =>
      have hstep : s.step (AppModel.Ev.deliver did ditems dmore) = s := by
        simp [AppModel.step, FetcherModel.deliver, hf]
      rw [hstep]
      exact ⟨hm, hlt, hslot⟩
    | some p =>
      have hstep : s.step (AppModel.Ev.deliver did ditems dmore) =
          { s with item_fetcher := { s.item_fetcher with
              pending := s.item_fetcher.pending.eraseP (fun q => q.id = did),
              mailbox := s.item_fetcher.mailbox ++
                [⟨did, p.page, p.append, ditems, dmore⟩] } } := by
        simp [AppModel.step, FetcherModel.deliver, hf]
      rw [hstep]
      exact ⟨List.mem_append_left _ hm, hlt, hslot⟩
  | keyDown => exact ⟨hm, hlt, hslot⟩
  | replaceSearch opts =>
    show msg ∈ ((s.item_fetcher.reset).fetch opts 1 false).mailbox ∧ _
    obtain ⟨h1, h2, h3⟩ := fetch_keeps_orphan s.item_fetcher.reset msg
      opts 1 false hm hlt
    exact ⟨h1, h2, h3⟩

/-- An orphan message stays in its channel across every run of the event
system: it can never be received, hence never merged. -/
theorem run_keeps_orphan {T : Type} (msg : FetchMsg T)
    (evs : List (AppModel.Ev T)) :
    ∀ s : AppModel T, msg ∈ s.item_fetcher.mailbox →
      msg.id + 1 < s.item_fetcher.nextId →
      (∀ i, s.item_fetcher.slot = some i →
        i + 1 = s.item_fetcher.nextId) →
      msg ∈ (s.run evs).item_fetcher.mailbox := by
  induction evs with
  | nil => intro s hm _ _; exact hm
  | cons e es ih =>
    intro s hm hlt hslot
    obtain ⟨h1, h2, h3⟩ := step_keeps_orphan s e msg hm hlt hslot
    exact ih (s.step e) h1 h2 h3

/-- Computation of App::update when a fetch is in flight and the slot's
channel holds a message: no lookahead is scheduled and the message is
merged. -/
theorem update_of_fetching_msg {T : Type} (s : AppModel T)
    (fetcher2 : FetcherModel T) (msg : FetchMsg T)
    (hfet : s.item_fetcher.is_fetching = true)
    (hpoll : s.item_fetcher.poll_result = (fetcher2, some msg)) :
    s.update =
      { s with
        item_fetcher := fetcher2,
        list := if (if msg.append = true then s.list.append_items msg.items
                    else s.list.replace_items msg.items).selected = none then
                  (if msg.append = true then s.list.append_items msg.items
                   else s.list.replace_items msg.items).select_next
                else
                  if msg.append = true then s.list.append_items msg.items
                  else s.list.replace_items msg.items,
        pagination := { s.pagination with
                        currentPage := msg.page,
                        hasNextPage := msg.more } } := by
  unfold AppModel.update
  simp only []
  rw [hfet]
  simp only [Bool.not_true, Bool.false_and, Bool.false_eq_true, if_false]
  rw [hpoll]

/-- C1: stale-result immunity.  From any well-formed state: schedule a
fetch A, then schedule a Replace fetch B (superseding A) before A's result
is delivered, then let A's worker complete late.  The tick that follows
merges nothing (A's send went to a channel whose receiver was dropped),
A's message stays unreceived across every continuation of the execution,
and when B's worker completes, the merged list items, page and has_more
are exactly those of B's response; A's items and has_more are never
merged. -/
theorem stale_result_immunity {T : Type} (s0 : AppModel T)
    (hwf : s0.item_fetcher.Wf) (optsA optsB : OptionsMap) (pageA : Nat)
    (appendA : Bool) (itemsA itemsB : List T) (moreA moreB : Bool) :
    let idA := s0.item_fetcher.nextId
    let s1 : AppModel T :=
      { s0 with item_fetcher := s0.item_fetcher.fetch optsA pageA appendA }
    let idB := s1.item_fetcher.nextId
    let s2 := s1.fetch_and_replace_items optsB
    let s3 := s2.step (AppModel.Ev.deliver idA itemsA moreA)
    s3.update = s3 ∧
    (∀ evs : List (AppModel.Ev T),
      (⟨idA, pageA, appendA, itemsA, moreA⟩ : FetchMsg T) ∈
        (s3.run evs).item_fetcher.mailbox) ∧
    (s3.step (AppModel.Ev.deliver idB itemsB moreB)).update.list.items =
      itemsB ∧
    (s3.step (AppModel.Ev.deliver idB itemsB moreB)).update.pagination.currentPage = 1 ∧
    (s3.step (AppModel.Ev.deliver idB itemsB moreB)).update.pagination.hasNextPage = moreB := by
  intro idA s1 idB s2 s3
  obtain ⟨hslot0, hpend0, hmail0⟩ := hwf
  have hAB : idB = idA + 1 := rfl
  have hp2 : s2.item_fetcher.pending =
      (s0.item_fetcher.pending ++ [⟨idA, pageA, appendA⟩]) ++
        [⟨idB, 1, false⟩] := rfl
  have hm2 : s2.item_fetcher.mailbox = s0.item_fetcher.mailbox := rfl
  have hPA : ∀ x ∈ s0.item_fetcher.pending,
      (decide (x.id = idA) : Bool) = false := by
    intro x hx
    have := hpend0 x hx
    simp only [decide_eq_false_iff_not]
    omega
  have hPB : ∀ x ∈ s0.item_fetcher.pending,
      (decide (x.id = idB) : Bool) = false := by
    intro x hx
    have := hpend0 x hx
    rw [hAB]
    simp only [decide_eq_false_iff_not]
    omega
  have hfindA : s2.item_fetcher.pending.find?
      (fun p => p.id = idA) = some ⟨idA, pageA, appendA⟩ := by
    rw [hp2, List.append_assoc, find?_append_left_none _ _ hPA,
      List.singleton_append, List.find?_cons_of_pos _ (by simp)]
  have h3 : s3 = { s2 with item_fetcher := { s2.item_fetcher with
      pending := s2.item_fetcher.pending.eraseP (fun q => q.id = idA),
      mailbox := s2.item_fetcher.mailbox ++
        [⟨idA, pageA, appendA, itemsA, moreA⟩] } } := by
    show s2.step (AppModel.Ev.deliver idA itemsA moreA) = _
    simp [AppModel.step, FetcherModel.deliver, hfindA]
  have hslot3 : s3.item_fetcher.slot = some idB := by rw [h3]; rfl
  have hnext3 : s3.item_fetcher.nextId = idA + 1 + 1 := by rw [h3]; rfl
  have hmb3 : s3.item_fetcher.mailbox = s0.item_fetcher.mailbox ++
      [⟨idA, pageA, appendA, itemsA, moreA⟩] := by rw [h3]; rfl
  have hpend3 : s3.item_fetcher.pending =
      s0.item_fetcher.pending ++ [⟨idB, 1, false⟩] := by
    rw [h3]
    show s2.item_fetcher.pending.eraseP (fun q => q.id = idA) = _
    rw [hp2, List.append_assoc, eraseP_append_left_none _ _ hPA,
      List.singleton_append, List.eraseP_cons]
    simp
  have hmbne : ∀ m ∈ s3.item_fetcher.mailbox, m.id ≠ idB := by
    intro m hm
    rw [hmb3] at hm
    rcases List.mem_append.mp hm with hold | hnew
    · have := hmail0 m hold
      rw [hAB]
      omega
    · rw [List.mem_singleton.mp hnew, hAB]
      simp
  refine ⟨update_of_fetching_no_msg s3 idB hslot3 hmbne, ?_, ?_⟩
  · intro evs
    refine run_keeps_orphan _ evs s3 ?_ ?_ ?_
    · rw [hmb3]
      exact List.mem_append_right _ (List.mem_singleton.mpr rfl)
    · rw [hnext3]
      show idA + 1 < idA + 1 + 1
      omega
    · intro i hi
      rw [hslot3] at hi
      cases hi
      rw [hnext3, hAB]
  · have hfindB : s3.item_fetcher.pending.find?
        (fun p => p.id = idB) = some ⟨idB, 1, false⟩ := by
      rw [hpend3, find?_append_left_none _ _ hPB,
        List.find?_cons_of_pos _ (by simp)]
    have h4 : s3.step (AppModel.Ev.deliver idB itemsB moreB) =
        { s3 with item_fetcher := { s3.item_fetcher with
          pending := s3.item_fetcher.pending.eraseP (fun q => q.id = idB),
          mailbox := s3.item_fetcher.mailbox ++
            [⟨idB, 1, false, itemsB, moreB⟩] } } := by
      simp [AppModel.step, FetcherModel.deliver, hfindB]
    have hslot4 : (s3.step (AppModel.Ev.deliver idB itemsB
        moreB)).item_fetcher.slot = some idB := by
      rw [h4]
      exact hslot3
    have hmb4 : (s3.step (AppModel.Ev.deliver idB itemsB
        moreB)).item_fetcher.mailbox =
        (s0.item_fetcher.mailbox ++ [⟨idA, pageA, appendA, itemsA, moreA⟩]) ++
          [⟨idB, 1, false, itemsB, moreB⟩] := by
      rw [h4]
      show s3.item_fetcher.mailbox ++ _ = _
      rw [hmb3]
    have hfind5 : (s3.step (AppModel.Ev.deliver idB itemsB
        moreB)).item_fetcher.mailbox.find? (fun m => m.id = idB) =
        some ⟨idB, 1, false, itemsB, moreB⟩ := by
      rw [hmb4, List.append_assoc, find?_append_left_none _ _ (by
        intro x hx
        have := hmail0 x hx
        rw [hAB]
        simp only [decide_eq_false_iff_not]
        omega),
        List.singleton_append,
        List.find?_cons_of_neg _ (by rw [hAB]; simp),
        List.find?_cons_of_pos _ (by simp)]
    have hfet4 : (s3.step (AppModel.Ev.deliver idB itemsB
        moreB)).item_fetcher.is_fetching = true := by
      simp [FetcherModel.is_fetching, hslot4]
    have hpoll4 : (s3.step (AppModel.Ev.deliver idB itemsB
        moreB)).item_fetcher.poll_result =
        ({ (s3.step (AppModel.Ev.deliver idB itemsB moreB)).item_fetcher with
            slot := none,
            mailbox := (s3.step (AppModel.Ev.deliver idB itemsB
              moreB)).item_fetcher.mailbox.eraseP (fun m => m.id = idB) },
         some ⟨idB, 1, false, itemsB, moreB⟩) := by
      simp [FetcherModel.poll_result, hslot4, hfind5]
    rw [update_of_fetching_msg _ _ _ hfet4 hpoll4]
    by_cases hB : itemsB.isEmpty <;>
      simp [ListModel.replace_items, ListModel.select_next, hB]

/-- C1 witness at concrete inputs. -/
theorem stale_result_immunity_witness :
    let idA := (AppModel.new Nat).item_fetcher.nextId
    let s1 : AppModel Nat :=
      { AppModel.new Nat with item_fetcher :=
          (AppModel.new Nat).item_fetcher.fetch [] 1 true }
    let idB := s1.item_fetcher.nextId
    let s2 := s1.fetch_and_replace_items []
    let s3 := s2.step (AppModel.Ev.deliver idA [7] true)
    s3.update = s3 ∧
    (∀ evs : List (AppModel.Ev Nat),
      (⟨idA, 1, true, [7], true⟩ : FetchMsg Nat) ∈
        (s3.run evs).item_fetcher.mailbox) ∧
    (s3.step (AppModel.Ev.deliver idB [8, 9] false)).update.list.items =
      [8, 9] ∧
    (s3.step (AppModel.Ev.deliver idB [8, 9]
      false)).update.pagination.currentPage = 1 ∧
    (s3.step (AppModel.Ev.deliver idB [8, 9]
      false)).update.pagination.hasNextPage = false :=
  stale_result_immunity (AppModel.new Nat)
    ⟨fun i h => by simp [AppModel.new, FetcherModel.new] at h,
     fun p h => by simp [AppModel.new, FetcherModel.new] at h,
     fun m h => by simp [AppModel.new, FetcherModel.new] at h⟩
    [] [] 1 true [7] [8, 9] true false

theorem render_wf {t : Tok} (h : t.Wf) :
    t.render ≠ [] ∧ ∀ c ∈ t.render, isWsChar c = false := by
  cases t with
  | opt k v =>
    obtain ⟨hk, hv⟩ := h
    refine ⟨by simp [Tok.render], ?_⟩
    intro c hc
    simp only [Tok.render, List.mem_cons, List.mem_append] at hc
    rcases hc with hat | hkm | heq | hvm
    · rw [hat]; decide
    · exact (hk c hkm).1
    · rw [heq]; decide
    · exact hv c hvm
  | word w =>
    exact ⟨h.1, h.2.1⟩

theorem splitWhitespace_cons (c : Char) (cs : List Char) :
    splitWhitespace (c :: cs) =
      if isWsChar c = true then splitWhitespace cs
      else splitWhitespaceCons c cs (splitWhitespace cs) := rfl

theorem splitWhitespace_single {w : List Char} (hne : w ≠ [])
    (hws : ∀ c ∈ w, isWsChar c = false) : splitWhitespace w = [w] := by
  induction w with
  | nil => exact absurd rfl hne
  | cons c w' ih =>
    have hc : isWsChar c = false := hws c (List.mem_cons_self c w')
    cases w' with
    | nil =>
      rw [splitWhitespace_cons]
      simp only [hc, Bool.false_eq_true, if_false]
      rfl
    | cons d w'' =>
      have hd : isWsChar d = false :=
        hws d (List.mem_cons_of_mem c (List.mem_cons_self d w''))
      have ih' := ih (by simp)
        (fun x hx => hws x (List.mem_cons_of_mem c hx))
      rw [splitWhitespace_cons]
      simp only [hc, Bool.false_eq_true, if_false]
      rw [ih']
      simp only [splitWhitespaceCons, hd, Bool.false_eq_true, if_false]

theorem splitWhitespace_word_space {w : List Char} (hne : w ≠ [])
    (hws : ∀ c ∈ w, isWsChar c = false) (rest : List Char) :
    splitWhitespace (w ++ ' ' :: rest) = w :: splitWhitespace rest := by
  induction w with
  | nil => exact absurd rfl hne
  | cons c w' ih =>
    have hc : isWsChar c = false := hws c (List.mem_cons_self c w')
    cases w' with
    | nil =>
      rw [List.singleton_append, splitWhitespace_cons]
      simp only [hc, Bool.false_eq_true, if_false]
      rw [splitWhitespace_cons, if_pos (show isWsChar ' ' = true by decide)]
      cases hr : splitWhitespace rest with
      | nil => rfl
      | cons v vs =>
        simp only [splitWhitespaceCons]
        rw [if_pos (show isWsChar ' ' = true by decide)]
    | cons d w'' =>
      have hd : isWsChar d = false :=
        hws d (List.mem_cons_of_mem c (List.mem_cons_self d w''))
      have ih' := ih (by simp)
        (fun x hx => hws x (List.mem_cons_of_mem c hx))
      rw [List.cons_append] at ih'
      rw [List.cons_append, List.cons_append, splitWhitespace_cons]
      simp only [hc, Bool.false_eq_true, if_false]
      rw [ih']
      simp only [splitWhitespaceCons, hd, Bool.false_eq_true, if_false]

theorem splitWhitespace_joinTokens (ts : List Tok)
    (hwf : ∀ t ∈ ts, t.Wf) :
    splitWhitespace (joinTokens ts) = ts.map Tok.render := by
  induction ts with
  | nil => rfl
  | cons t ts ih =>
    obtain ⟨hne, hws⟩ := render_wf (hwf t (List.mem_cons_self t ts))
    cases ts with
    | nil =>
      show splitWhitespace t.render = [t.render]
      exact splitWhitespace_single hne hws
    | cons t2 ts2 =>
      show splitWhitespace (t.render ++ ' ' :: joinTokens (t2 :: ts2)) = _
      rw [splitWhitespace_word_space hne hws,
        ih (fun x hx => hwf x (List.mem_cons_of_mem t hx))]
      rfl

theorem splitOnce_append {k : List Char} (v : List Char) (hk : '=' ∉ k) :
    splitOnce '=' (k ++ '=' :: v) = some (k, v) := by
  induction k with
  | nil => simp [splitOnce]
  | cons c k' ih =>
    have hc : c ≠ '=' := fun he => hk (he ▸ List.mem_cons_self c k')
    have ih' := ih (fun hm => hk (List.mem_cons_of_mem c hm))
    simp [splitOnce, hc, ih']

theorem splitOnce_none {l : List Char} (hl : '=' ∉ l) :
    splitOnce '=' l = none := by
  induction l with
  | nil => rfl
  | cons c l' ih =>
    have hc : c ≠ '=' := fun he => hl (he ▸ List.mem_cons_self c l')
    have ih' := ih (fun hm => hl (List.mem_cons_of_mem c hm))
    simp [splitOnce, hc, ih']

theorem parseStep_render (t : Tok) (h : t.Wf) (acc : OptionsMap × List Char) :
    parseStep acc t.render =
      match t with
      | Tok.opt k v => (hmInsert acc.1 k v, acc.2)
      | Tok.word w => (acc.1, appendRemaining acc.2 w) := by
  cases t with
  | opt k v =>
    obtain ⟨hk, -⟩ := h
    have hkne : '=' ∉ k := fun hm => (hk _ hm).2 rfl
    simp [Tok.render, parseStep, splitOnce_append v hkne]
  | word w =>
    obtain ⟨hne, -, hop⟩ := h
    cases w with
    | nil => exact absurd rfl hne
    | cons c rest =>
      by_cases hc : c = '@'
      · subst hc
        have hrest : '=' ∉ rest := hop rfl
        simp [Tok.render, parseStep, splitOnce_none hrest]
      · simp [Tok.render, parseStep, hc]

theorem hmGet_hmInsert (m : OptionsMap) (k v k2 : List Char) :
    hmGet (hmInsert m k v) k2 = if k2 = k then some v else hmGet m k2 := by
  induction m with
  | nil =>
    by_cases h : k2 = k
    · simp [hmInsert, hmGet, h]
    · have h' : ¬ k = k2 := fun he => h he.symm
      simp [hmInsert, hmGet, h, h']
  | cons p ps ih =>
    by_cases hp : p.1 = k
    · rw [show hmInsert (p :: ps) k v = (k, v) :: ps from by
        simp [hmInsert, hp]]
      by_cases h2 : k2 = k
      · simp [hmGet, h2]
      · have h2' : ¬ k = k2 := fun he => h2 he.symm
        have hp' : ¬ p.1 = k2 := by rw [hp]; exact h2'
        simp [hmGet, h2, h2', hp']
    · rw [show hmInsert (p :: ps) k v = p :: hmInsert ps k v from by
        simp [hmInsert, hp]]
      by_cases hpk2 : p.1 = k2
      · have h2 : ¬ k2 = k := fun he => hp (he ▸ hpk2)
        simp [hmGet, hpk2, h2]
      · rw [show hmGet (p :: hmInsert ps k v) k2 =
            hmGet (hmInsert ps k v) k2 from by simp [hmGet, hpk2]]
        rw [show hmGet (p :: ps) k2 = hmGet ps k2 from by
          simp [hmGet, hpk2]]
        exact ih

theorem lastOpt_cons (t : Tok) (ts : List Tok) (k : List Char) :
    lastOpt (t :: ts) k =
      match lastOpt ts k with
      | some v => some v
      | none =>
        match t with
        | Tok.opt k2 v => if k2 = k then some v else none
        | _ => none := rfl

theorem freeWords_cons_opt (k v : List Char) (ts : List Tok) :
    freeWords (Tok.opt k v :: ts) = freeWords ts := by
  simp [freeWords, List.filterMap_cons]

theorem freeWords_cons_word (w : List Char) (ts : List Tok) :
    freeWords (Tok.word w :: ts) = w :: freeWords ts := by
  simp [freeWords, List.filterMap_cons]

/-- Options half of the word-loop fold: each key ends with the value of
its last @key=value token, keys never written keep their initial
binding. -/
theorem parse_fold_get (ts : List Tok) (hwf : ∀ t ∈ ts, t.Wf) :
    ∀ (opts : OptionsMap) (rem : List Char) (k : List Char),
      hmGet ((ts.map Tok.render).foldl parseStep (opts, rem)).1 k =
        match lastOpt ts k with
        | some v => some v
        | none => hmGet opts k := by
  induction ts with
  | nil => intro opts rem k; rfl
  | cons t ts ih =>
    intro opts rem k
    have hwt := hwf t (List.mem_cons_self t ts)
    have hwts := fun x hx => hwf x (List.mem_cons_of_mem t hx)
    rw [List.map_cons, List.foldl_cons, parseStep_render t hwt, lastOpt_cons]
    cases t with
    | opt k1 v1 =>
      rw [ih hwts (hmInsert opts k1 v1) rem k]
      cases hl : lastOpt ts k with
      | some v => rfl
      | none =>
        show hmGet (hmInsert opts k1 v1) k = _
        rw [hmGet_hmInsert]
        by_cases hk : k1 = k
        · simp [hk]
        · have hk' : ¬ k = k1 := fun he => hk he.symm
          simp [hk, hk']
    | word w =>
      rw [ih hwts opts (appendRemaining rem w) k]
      cases hl : lastOpt ts k with
      | some v => rfl
      | none => rfl

/-- Free-text half of the word-loop fold: the remaining text accumulates
exactly the free words. -/
theorem parse_fold_rem (ts : List Tok) (hwf : ∀ t ∈ ts, t.Wf) :
    ∀ (opts : OptionsMap) (rem : List Char),
      ((ts.map Tok.render).foldl parseStep (opts, rem)).2 =
        (freeWords ts).foldl appendRemaining rem := by
  induction ts with
  | nil => intro opts rem; rfl
  | cons t ts ih =>
    intro opts rem
    have hwt := hwf t (List.mem_cons_self t ts)
    have hwts := fun x hx => hwf x (List.mem_cons_of_mem t hx)
    rw [List.map_cons, List.foldl_cons, parseStep_render t hwt]
    cases t with
    | opt k1 v1 =>
      rw [freeWords_cons_opt]
      exact ih hwts (hmInsert opts k1 v1) rem
    | word w =>
      rw [freeWords_cons_word, List.foldl_cons]
      exact ih hwts opts (appendRemaining rem w)

theorem foldl_appendRemaining_of_ne (ws : List (List Char)) :
    ∀ r : List Char, r ≠ [] →
      ws.foldl appendRemaining r =
        r ++ (ws.map (fun w => ' ' :: w)).flatten := by
  induction ws with
  | nil => intro r _; simp
  | cons w ws ih =>
    intro r hr
    rw [List.foldl_cons, show appendRemaining r w = r ++ ' ' :: w from by
      simp [appendRemaining, hr]]
    rw [ih (r ++ ' ' :: w) (by simp)]
    simp

theorem joinWords_eq_flatten (ws : List (List Char)) (w : List Char) :
    joinWords (w :: ws) = w ++ (ws.map (fun v => ' ' :: v)).flatten := by
  induction ws generalizing w with
  | nil => simp [joinWords]
  | cons v vs ih =>
    rw [show joinWords (w :: v :: vs) = w ++ ' ' :: joinWords (v :: vs)
      from rfl, ih v]
    simp

theorem foldl_appendRemaining_nil (ws : List (List Char))
    (h : ∀ w ∈ ws, w ≠ []) :
    ws.foldl appendRemaining [] = joinWords ws := by
  cases ws with
  | nil => rfl
  | cons w ws' =>
    rw [List.foldl_cons, show appendRemaining [] w = w from rfl,
      foldl_appendRemaining_of_ne ws' w (h w (List.mem_cons_self w ws')),
      joinWords_eq_flatten]

theorem joinWords_ne_nil (ws : List (List Char)) (hne : ws ≠ [])
    (h : ∀ w ∈ ws, w ≠ []) : joinWords ws ≠ [] := by
  cases ws with
  | nil => exact absurd rfl hne
  | cons w ws' =>
    rw [joinWords_eq_flatten]
    intro hcontra
    rw [List.append_eq_nil] at hcontra
    exact h w (List.mem_cons_self w ws') hcontra.1

theorem freeWords_wf {ts : List Tok} (hwf : ∀ t ∈ ts, t.Wf) :
    ∀ w ∈ freeWords ts, w ≠ [] := by
  intro w hw
  rw [freeWords, List.mem_filterMap] at hw
  obtain ⟨t, ht, hft⟩ := hw
  cases t with
  | opt k v => simp at hft
  | word w2 =>
    simp only [Option.some.injEq] at hft
    exact hft ▸ (hwf _ ht).1

/-- Characterization of parse_fetch_options on a well-formed token
sequence: every key other than the reserved key holds the last @key=value
given for it; the reserved key holds the free words rejoined with single
spaces when any exist, otherwise the last @query= value if any. -/
theorem parse_characterization (ts : List Tok) (hwf : ∀ t ∈ ts, t.Wf) :
    (∀ k, k ≠ strQuery →
      hmGet (parseFetchOptions (joinTokens ts)) k = lastOpt ts k) ∧
    (freeWords ts ≠ [] →
      hmGet (parseFetchOptions (joinTokens ts)) strQuery =
        some (joinWords (freeWords ts))) ∧
    (freeWords ts = [] →
      hmGet (parseFetchOptions (joinTokens ts)) strQuery =
        lastOpt ts strQuery) := by
  have hid : ∀ o : Option (List Char),
      (match o with | some v => some v | none => none) = o := by
    intro o; cases o <;> rfl
  have hget := parse_fold_get ts hwf [] []
  have hrem := parse_fold_rem ts hwf [] []
  have hpf : parseFetchOptions (joinTokens ts) =
      (if (((ts.map Tok.render).foldl parseStep ([], [])).2).isEmpty then
        ((ts.map Tok.render).foldl parseStep ([], [])).1
      else
        hmInsert ((ts.map Tok.render).foldl parseStep ([], [])).1 strQuery
          (((ts.map Tok.render).foldl parseStep ([], [])).2)) := by
    simp only [parseFetchOptions, splitWhitespace_joinTokens ts hwf]
  have hgetnone : ∀ k : List Char, hmGet ([] : OptionsMap) k = none :=
    fun k => rfl
  by_cases hfw : freeWords ts = []
  · have hrem0 : ((ts.map Tok.render).foldl parseStep ([], [])).2 = [] := by
      rw [hrem, hfw]
      rfl
    rw [hrem0] at hpf
    simp only [List.isEmpty_nil, if_true] at hpf
    refine ⟨?_, fun h => absurd hfw h, ?_⟩
    · intro k _
      rw [hpf, hget k, hgetnone k, hid]
    · intro _
      rw [hpf, hget strQuery, hgetnone strQuery, hid]
  · have hwords := freeWords_wf hwf
    have hrem1 : ((ts.map Tok.render).foldl parseStep ([], [])).2 =
        joinWords (freeWords ts) := by
      rw [hrem, foldl_appendRemaining_nil _ hwords]
    have hne1 : joinWords (freeWords ts) ≠ [] :=
      joinWords_ne_nil _ hfw hwords
    rw [hrem1] at hpf
    rw [if_neg (by
      intro hcontra
      exact hne1 (List.isEmpty_iff.mp hcontra))] at hpf
    refine ⟨?_, fun _ => ?_, fun h => absurd h hfw⟩
    · intro k hk
      rw [hpf, hmGet_hmInsert, if_neg hk, hget k, hgetnone k, hid]
    · rw [hpf, hmGet_hmInsert, if_pos rfl]

/-- C4 counterexample: the raw input formed from the single well-formed
option token @query=v contains no free word, yet parsing it yields a
"query" entry (holding "v"), so the claim that the map has no "query"
entry when there are no free words fails as stated. -/
theorem parse_query_option_no_free_words_counterexample :
    joinTokens [Tok.opt strQuery ['v']] =
      ['@', 'q', 'u', 'e', 'r', 'y', '=', 'v'] ∧
    freeWords [Tok.opt strQuery ['v']] = [] ∧
    (∀ t ∈ [Tok.opt strQuery ['v']], t.Wf) ∧
    hmGet (parseFetchOptions ['@', 'q', 'u', 'e', 'r', 'y', '=', 'v'])
      strQuery ≠ none := by
  decide

/-- C4 (amended): on every raw input interleaving well-formed @key=value
tokens and free words, each key other than the reserved key "query" maps
to the last value given for it; a "query" entry equal to the free words
rejoined with single spaces exists whenever there is at least one free
word; and with no free words the "query" entry is exactly that of the
last @query= token (absent when there is none). -/
theorem parse_fetch_options_spec (ts : List Tok) (hwf : ∀ t ∈ ts, t.Wf) :
    (∀ k, k ≠ strQuery →
      hmGet (parseFetchOptions (joinTokens ts)) k = lastOpt ts k) ∧
    (freeWords ts ≠ [] →
      hmGet (parseFetchOptions (joinTokens ts)) strQuery =
        some (joinWords (freeWords ts))) ∧
    (freeWords ts = [] →
      hmGet (parseFetchOptions (joinTokens ts)) strQuery =
        lastOpt ts strQuery) :=
  parse_characterization ts hwf

/-- C4 amended claim witness at a concrete token sequence. -/
theorem parse_fetch_options_spec_witness :
    (∀ k, k ≠ strQuery →
      hmGet (parseFetchOptions (joinTokens [Tok.opt ['a'] ['1'],
        Tok.word ['b', 'u', 'g'], Tok.opt ['a'] ['2']])) k =
        lastOpt [Tok.opt ['a'] ['1'], Tok.word ['b', 'u', 'g'],
          Tok.opt ['a'] ['2']] k) ∧
    (freeWords [Tok.opt ['a'] ['1'], Tok.word ['b', 'u', 'g'],
        Tok.opt ['a'] ['2']] ≠ [] →
      hmGet (parseFetchOptions (joinTokens [Tok.opt ['a'] ['1'],
        Tok.word ['b', 'u', 'g'], Tok.opt ['a'] ['2']])) strQuery =
        some (joinWords (freeWords [Tok.opt ['a'] ['1'],
          Tok.word ['b', 'u', 'g'], Tok.opt ['a'] ['2']]))) ∧
    (freeWords [Tok.opt ['a'] ['1'], Tok.word ['b', 'u', 'g'],
        Tok.opt ['a'] ['2']] = [] →
      hmGet (parseFetchOptions (joinTokens [Tok.opt ['a'] ['1'],
        Tok.word ['b', 'u', 'g'], Tok.opt ['a'] ['2']])) strQuery =
        lastOpt [Tok.opt ['a'] ['1'], Tok.word ['b', 'u', 'g'],
          Tok.opt ['a'] ['2']] strQuery) :=
  parse_fetch_options_spec
    [Tok.opt ['a'] ['1'], Tok.word ['b', 'u', 'g'], Tok.opt ['a'] ['2']]
    (by decide)

/-- C10: whenever the raw input holds an @query= token together with at
least one free word, the parsed "query" entry is the rejoined free text:
the free-text entry is inserted after all @key=value tokens and overwrites
the @query= value. -/
theorem free_text_overrides_query_option (ts : List Tok) (v : List Char)
    (hwf : ∀ t ∈ ts, t.Wf) (hq : Tok.opt strQuery v ∈ ts)
    (hfw : freeWords ts ≠ []) :
    hmGet (parseFetchOptions (joinTokens ts)) strQuery =
      some (joinWords (freeWords ts)) :=
  (parse_characterization ts hwf).2.1 hfw

/-- C10 witness: parsing the input formed from @query=v and the free word
bug yields query = bug. -/
theorem free_text_overrides_query_option_witness :
    hmGet (parseFetchOptions (joinTokens [Tok.opt strQuery ['v'],
      Tok.word ['b', 'u', 'g']])) strQuery =
      some (joinWords (freeWords [Tok.opt strQuery ['v'],
        Tok.word ['b', 'u', 'g']])) :=
  free_text_overrides_query_option
    [Tok.opt strQuery ['v'], Tok.word ['b', 'u', 'g']] ['v']
    (by decide) (by decide) (by decide)

end GitForge
